import Mathlib

/-!
Verification development for the wiser-cpp N-gram full-text search engine.

Shallow embedding of the core of the engine:
strings are lists of bytes (naturals below 256), UTF-32 text is a list of
code points, postings lists are association lists from document ids to
position lists, and the persistent token store is a list of rows.
Machine integers (int32 / uint32 in the source) are modelled as naturals
carrying the 32-bit bit pattern; wrap-around is made explicit with mod
2^32 exactly where the source performs 32-bit arithmetic.

Source files embedded: src/tokenizer.cpp, src/utils.cpp, src/postings.cpp,
include/wiser/compression_utils.h, src/search_engine.cpp,
src/wiser_environment.cpp and the store operations of src/database.cpp.
-/

namespace Wiser

/-! ## Character classification (tokenizer.cpp and utils.cpp) -/

/-- ASCII whitespace, as recognised by std::isspace in the C locale:
space and the control characters 9..13. -/
def isSpaceAscii (c : Nat) : Bool :=
  c == 32 || (9 ≤ c && c ≤ 13)

/-- ASCII punctuation, as recognised by std::ispunct in the C locale:
the printable ASCII characters that are neither alphanumeric nor space. -/
def isPunctAscii (c : Nat) : Bool :=
  (33 ≤ c && c ≤ 47) || (58 ≤ c && c ≤ 64) || (91 ≤ c && c ≤ 96) || (123 ≤ c && c ≤ 126)

/-- The sixteen ideographic/fullwidth punctuation code points listed in the
switch statements of both isIgnoredChar implementations. -/
def isCjkPunct (c : Nat) : Bool :=
  c == 0x3000 || c == 0x3001 || c == 0x3002 || c == 0xFF08 || c == 0xFF09 ||
  c == 0xFF01 || c == 0xFF0C || c == 0xFF1A || c == 0xFF1B || c == 0xFF1F ||
  c == 0xFF3B || c == 0xFF3D || c == 0x201C || c == 0x201D || c == 0x2018 || c == 0x2019

/-- isIgnoredChar from src/tokenizer.cpp (the ingest side): every ASCII
whitespace or punctuation character is ignored, plus the sixteen fullwidth
code points. -/
def tokenizerIsIgnoredChar (c : Nat) : Bool :=
  if c ≤ 127 then isSpaceAscii c || isPunctAscii c
  else isCjkPunct c

/-- Utils::isIgnoredChar from src/utils.cpp (the query side): ASCII
whitespace is ignored, ASCII punctuation is ignored except the period
(0x2E), plus the sixteen fullwidth code points. -/
def utilsIsIgnoredChar (c : Nat) : Bool :=
  if c ≤ 127 then
    if isSpaceAscii c then true
    else if isPunctAscii c then
      if c == 46 then false else true
    else false
  else isCjkPunct c

/-- The character-class policy as worded by the specification: a code point
is ignored iff it is ASCII whitespace, or ASCII punctuation other than the
period, or one of the sixteen listed fullwidth code points. Stated from the
spec for comparison against the two source-side classifiers. -/
def specIgnoredChar (c : Nat) : Bool :=
  isSpaceAscii c || (isPunctAscii c && !(c == 46)) || isCjkPunct c

/-! ## UTF-8 codec (utils.cpp) -/

/-- Utils::utf32ToUtf8 on a single code point: the list of UTF-8 bytes,
empty for code points above 0x10FFFF (the source skips invalid code
points). -/
def utf8BytesOfChar (c : Nat) : List Nat :=
  if c ≤ 0x7F then [c]
  else if c ≤ 0x7FF then [0xC0 ||| (c >>> 6), 0x80 ||| (c &&& 0x3F)]
  else if c ≤ 0xFFFF then
    [0xE0 ||| (c >>> 12), 0x80 ||| ((c >>> 6) &&& 0x3F), 0x80 ||| (c &&& 0x3F)]
  else if c ≤ 0x10FFFF then
    [0xF0 ||| (c >>> 18), 0x80 ||| ((c >>> 12) &&& 0x3F),
     0x80 ||| ((c >>> 6) &&& 0x3F), 0x80 ||| (c &&& 0x3F)]
  else []

/-- Utils::utf32ToUtf8: concatenation of the per-code-point encodings. -/
def utf32ToUtf8 (s : List Nat) : List Nat :=
  (s.map utf8BytesOfChar).flatten

/-- Whether a byte is a UTF-8 continuation byte (10xxxxxx). -/
def isContByte (b : Nat) : Bool :=
  b &&& 0xC0 == 0x80

/-- The while loop of Utils::utf8ToUtf32. Each step consumes at least one
byte, so fuel equal to the number of bytes suffices. Invalid lead bytes and
invalid continuation bytes cause a one-byte skip; a truncated multi-byte
sequence at the end of the input stops the decoding (the source breaks out
of its loop). -/
def utf8Loop : Nat → List Nat → List Nat
  | 0, _ => []
  | _, [] => []
  | fuel + 1, b :: rest =>
    if b &&& 0x80 == 0 then b :: utf8Loop fuel rest
    else if b &&& 0xE0 == 0xC0 then
      match rest with
      | [] => []
      | b1 :: r2 =>
        if isContByte b1 then (((b &&& 0x1F) <<< 6) ||| (b1 &&& 0x3F)) :: utf8Loop fuel r2
        else utf8Loop fuel rest
    else if b &&& 0xF0 == 0xE0 then
      match rest with
      | [] => []
      | [_] => []
      | b1 :: b2 :: r3 =>
        if isContByte b1 && isContByte b2 then
          (((b &&& 0x0F) <<< 12) ||| ((b1 &&& 0x3F) <<< 6) ||| (b2 &&& 0x3F)) :: utf8Loop fuel r3
        else utf8Loop fuel rest
    else if b &&& 0xF8 == 0xF0 then
      match rest with
      | [] => []
      | [_] => []
      | [_, _] => []
      | b1 :: b2 :: b3 :: r4 =>
        if isContByte b1 && isContByte b2 && isContByte b3 then
          (((b &&& 0x07) <<< 18) ||| ((b1 &&& 0x3F) <<< 12) |||
           ((b2 &&& 0x3F) <<< 6) ||| (b3 &&& 0x3F)) :: utf8Loop fuel r4
        else utf8Loop fuel rest
    else utf8Loop fuel rest

/-- Utils::utf8ToUtf32: decode a UTF-8 byte list to code points. -/
def utf8ToUtf32 (s : List Nat) : List Nat :=
  utf8Loop s.length s

/-- std::tolower in the C locale restricted to ASCII: map A..Z to a..z. -/
def asciiToLower (c : Nat) : Nat :=
  if 65 ≤ c && c ≤ 90 then c + 32 else c

/-! ## Ingest-side tokenizer (tokenizer.cpp) -/

/-- Number of leading characters from index pos that isIgnoredChar skips
(the skip loop of getNextNGram). -/
def skipIgnoredCount (text : List Nat) (pos : Nat) : Nat :=
  ((text.drop pos).takeWhile tokenizerIsIgnoredChar).length

/-- Length of the n-gram collected from index start: at most n characters,
stopping at the end of the text or at an ignored character (the collect
loop of getNextNGram). -/
def ingestRunCount (text : List Nat) (start n : Nat) : Nat :=
  min n ((text.drop start).takeWhile (fun c => !tokenizerIsIgnoredChar c)).length

/-- Tokenizer::extractNGram: take len characters from start, lowercase the
ASCII range, and encode as UTF-8. -/
def extractNGram (text : List Nat) (start len : Nat) : List Nat :=
  utf32ToUtf8 (((text.drop start).take len).map
    (fun c => if c ≤ 127 then asciiToLower c else c))

/-- The while loop of Tokenizer::textToPostingsLists, emitting token texts.
The loop always restarts one code point after the start of the previous
window, so text.length + 1 steps of fuel always suffice. -/
def ingestLoop (n : Nat) (text : List Nat) : Nat → Nat → List (List Nat)
  | 0, _ => []
  | fuel + 1, pos =>
    if pos < text.length then
      let start := pos + skipIgnoredCount text pos
      let cnt := ingestRunCount text start n
      if cnt = 0 then []
      else
        (if n ≤ cnt then [extractNGram text start cnt] else []) ++
          ingestLoop n text fuel (start + 1)
    else []

/-- The sequence of token texts (UTF-8 byte lists) that the ingest-side
tokenization Tokenizer::textToPostingsLists emits for a UTF-32 text. -/
def ingestTokenTexts (n : Nat) (text : List Nat) : List (List Nat) :=
  ingestLoop n text (text.length + 1) 0

/-! ## Query-side tokenizer (search_engine.cpp getTokenIds) -/

/-- The query-side skip loop, using Utils::isIgnoredChar. -/
def querySkipIgnoredCount (text : List Nat) (pos : Nat) : Nat :=
  ((text.drop pos).takeWhile utilsIsIgnoredChar).length

/-- The query-side collect loop, using Utils::isIgnoredChar. -/
def queryRunCount (text : List Nat) (start n : Nat) : Nat :=
  min n ((text.drop start).takeWhile (fun c => !utilsIsIgnoredChar c)).length

/-- A query-side token: n code points from start encoded to UTF-8, then the
ASCII bytes lowercased. -/
def queryToken (text : List Nat) (start n : Nat) : List Nat :=
  (utf32ToUtf8 ((text.drop start).take n)).map
    (fun b => if b < 128 then asciiToLower b else b)

/-- The while loop of SearchEngine::getTokenIds, restricted to the token
texts it forms (before any store lookup). -/
def queryLoop (n : Nat) (text : List Nat) : Nat → Nat → List (List Nat)
  | 0, _ => []
  | fuel + 1, pos =>
    if pos < text.length then
      let start := pos + querySkipIgnoredCount text pos
      if start < text.length then
        let cnt := queryRunCount text start n
        (if n ≤ cnt then [queryToken text start n] else []) ++
          queryLoop n text fuel (start + 1)
      else []
    else []

/-- The sequence of token texts that the query-side tokenization of
SearchEngine::getTokenIds forms for a UTF-32 text, before store lookup. -/
def queryTokenTexts (n : Nat) (text : List Nat) : List (List Nat) :=
  queryLoop n text (text.length + 1) 0

/-! ## Postings model (postings.cpp)

A PostingsItem is a pair of a document id and its position list; a
PostingsList is the list of its items. Machine integers are carried as
naturals holding the 32-bit pattern. -/

/-- A PostingsItem: document id and positions. -/
abbrev PItem := Nat × List Nat

/-- The items of a PostingsList. -/
abbrev PList := List PItem

/-- The comparator of PostingsList::findOrCreateItem: order items by
document id. -/
def docIdLe (a b : PItem) : Prop :=
  a.1 ≤ b.1

instance : DecidableRel docIdLe :=
  fun a b => inferInstanceAs (Decidable (a.1 ≤ b.1))

instance : IsTotal PItem docIdLe :=
  ⟨fun a b => Nat.le_total a.1 b.1⟩

instance : IsTrans PItem docIdLe :=
  ⟨fun _ _ _ hab hbc => Nat.le_trans hab hbc⟩

/-- The std::ranges::sort call of findOrCreateItem: sort the items by
document id (all items have distinct ids at every call site, so any
comparison sort yields this result). -/
def sortByDocId (items : PList) : PList :=
  List.insertionSort docIdLe items

/-- PostingsList::findOrCreateItem followed by appending positions ps to
the found or created item (the body of PostingsList::merge for one item;
with a singleton ps this is PostingsList::addPosting). The created item is
inserted and the list re-sorted by document id; positions are appended
without sorting or deduplication. -/
def addPositionsForDoc (items : PList) (d : Nat) (ps : List Nat) : PList :=
  if items.any (fun it => it.1 == d) then
    items.map (fun it => if it.1 == d then (it.1, it.2 ++ ps) else it)
  else
    sortByDocId (items ++ [(d, ps)])

/-- PostingsList::addPosting: find or create the item for the document and
append one position. -/
def listAddPosting (items : PList) (d p : Nat) : PList :=
  addPositionsForDoc items d [p]

/-- PostingsList::merge: for each item of other (in order), find or create
the item with the same document id and append all its positions. -/
def mergeLists (a b : PList) : PList :=
  b.foldl (fun acc it => addPositionsForDoc acc it.1 it.2) a

/-- InvertedIndex::addPosting: route the posting to the token's list,
creating the list on first use. -/
def indexAddPosting (idx : List (Nat × PList)) (tid d p : Nat) : List (Nat × PList) :=
  if idx.any (fun e => e.1 == tid) then
    idx.map (fun e => if e.1 == tid then (e.1, listAddPosting e.2 d p) else e)
  else
    idx ++ [(tid, listAddPosting [] d p)]

/-- The document ids of a list are sorted strictly ascending (hence each id
occurs in at most one item). -/
def docIdsSorted (items : PList) : Prop :=
  List.Chain' (· < ·) (items.map Prod.fst)

/-- Adjacent strictly-increasing check on a list of naturals, used to give
docIdsSorted a kernel-reducible decision procedure. -/
def chainLtBool : List Nat → Bool
  | [] => true
  | [_] => true
  | a :: b :: t => decide (a < b) && chainLtBool (b :: t)

/-- Association lookup of the positions recorded for a document id (the
linear search of findOrCreateItem). -/
def lookupDoc (items : PList) (d : Nat) : Option (List Nat) :=
  (items.find? (fun it => it.1 == d)).map Prod.snd

/-- The operations the in-memory buffer is built by: InvertedIndex::addPosting
routes one posting into a token's list, and PostingsList::merge folds another
list into a token's list. -/
inductive BufferOp where
  | addPosting (tokenId docId pos : Nat)
  | mergePostings (tokenId : Nat) (other : PList)

/-- Apply one buffer operation to the in-memory index. -/
def applyBufferOp (idx : List (Nat × PList)) : BufferOp → List (Nat × PList)
  | .addPosting t d p => indexAddPosting idx t d p
  | .mergePostings t other =>
    idx.map (fun e => if e.1 == t then (e.1, mergeLists e.2 other) else e)

/-- Apply a sequence of buffer operations starting from the empty index. -/
def applyBufferOps (ops : List BufferOp) : List (Nat × PList) :=
  ops.foldl applyBufferOp []

/-! ## Serialization (postings.cpp, compression_utils.h)

Bytes are naturals carrying an 8-bit pattern; 32-bit machine values are
naturals below 2^32. sub32/add32 are int32 subtraction/addition observed
through the uint32 bit pattern, as performed by the delta coding. -/

/-- The two compression methods of types.h. -/
inductive CompressMethod where
  | NONE
  | GOLOMB
deriving DecidableEq

/-- uint32 bit pattern of the int32 difference a - b (the delta computation
of the Golomb serializer). -/
def sub32 (a b : Nat) : Nat :=
  (a % 4294967296 + 4294967296 - b % 4294967296) % 4294967296

/-- uint32 / int32 addition (the prefix-sum reconstruction of the
deserializer). -/
def add32 (a b : Nat) : Nat :=
  (a + b) % 4294967296

/-- Little-endian bytes of a 32-bit value, as memcpy of an int32 writes
them on the little-endian host. -/
def u32le (v : Nat) : List Nat :=
  [v % 256, v / 256 % 256, v / 65536 % 256, v / 16777216 % 256]

/-- The 32-bit value read back from four little-endian bytes. -/
def u32val (b0 b1 b2 b3 : Nat) : Nat :=
  (b0 + 256 * b1 + 65536 * b2 + 16777216 * b3) % 4294967296

/-- The deserializer loops run for a signed int32 count: a bit pattern at or
above 2^31 is a negative Count, so the loop body runs zero times. -/
def int32LoopCount (n : Nat) : Nat :=
  if n < 2147483648 then n else 0

/-- One item of the raw NONE format: doc_id, positions_count, positions,
all fixed-width little-endian 32-bit. -/
def serializeItemNone (it : PItem) : List Nat :=
  u32le (it.1 % 4294967296) ++ u32le (it.2.length % 4294967296) ++
    (it.2.map (fun p => u32le (p % 4294967296))).flatten

/-- PostingsList::serialize with CompressMethod::NONE: items_count followed
by the items. -/
def serializeNone (L : PList) : List Nat :=
  u32le (L.length % 4294967296) ++ (L.map serializeItemNone).flatten

/-- The positions loop of the NONE deserializer: read up to the count while
four bytes remain, else stop and keep the cursor. -/
def readPositionsNone : Nat → List Nat → (List Nat × List Nat)
  | 0, bytes => ([], bytes)
  | j + 1, bytes =>
    match bytes with
    | b0 :: b1 :: b2 :: b3 :: rest =>
      let pr := readPositionsNone j rest
      (u32val b0 b1 b2 b3 :: pr.1, pr.2)
    | _ => ([], bytes)

/-- The items loop of the NONE deserializer: read doc_id and count with
bounds checks (breaking without a partial item when either does not fit),
then the positions (keeping a partial item when they are truncated). -/
def readItemsNone : Nat → List Nat → PList
  | 0, _ => []
  | i + 1, bytes =>
    match bytes with
    | b0 :: b1 :: b2 :: b3 :: c0 :: c1 :: c2 :: c3 :: rest2 =>
      let pc := u32val c0 c1 c2 c3
      let pr := readPositionsNone (int32LoopCount pc) rest2
      (u32val b0 b1 b2 b3, pr.1) :: readItemsNone i pr.2
    | _ => []

/-- PostingsList::deserialize with CompressMethod::NONE. -/
def deserializeNone (bytes : List Nat) : PList :=
  match bytes with
  | b0 :: b1 :: b2 :: b3 :: rest =>
    readItemsNone (int32LoopCount (u32val b0 b1 b2 b3)) rest
  | _ => []

/-- BitWriter::writeBits: the low b bits of v, most significant first. -/
def natBits : Nat → Nat → List Bool
  | _, 0 => []
  | v, b + 1 => v.testBit b :: natBits v b

/-- BitWriter::writeUnary: q one bits followed by a zero bit. -/
def unaryBits (q : Nat) : List Bool :=
  List.replicate q true ++ [false]

/-- The loop computing the ceiling of log2 M in GolombEncoder/Decoder
(while ((1 << b) < M) b++), with fuel standing in for the bounded int. -/
def golombBLoop : Nat → Nat → Nat → Nat
  | 0, _, b => b
  | f + 1, M, b => if 2 ^ b < M then golombBLoop f M (b + 1) else b

/-- The parameter b of the truncated binary code for divisor M. -/
def golombB (M : Nat) : Nat :=
  golombBLoop 64 M 0

/-- GolombEncoder::encode of a 32-bit value x with divisor M: the quotient
in unary, then the remainder in truncated binary. -/
def golombEncode (x M : Nat) : List Bool :=
  unaryBits (x / M) ++
    (if x % M < 2 ^ golombB M - M then natBits (x % M) (golombB M - 1)
     else natBits (x % M + (2 ^ golombB M - M)) (golombB M))

/-- BitReader::readUnary, failing at end of stream (the reader throws). -/
def readUnary : List Bool → Option (Nat × List Bool)
  | [] => none
  | false :: rest => some (0, rest)
  | true :: rest =>
    match readUnary rest with
    | none => none
    | some (q, r) => some (q + 1, r)

/-- BitReader::readBits with an accumulator, failing at end of stream. -/
def readBitsAcc : Nat → Nat → List Bool → Option (Nat × List Bool)
  | acc, 0, bits => some (acc, bits)
  | _, _ + 1, [] => none
  | acc, n + 1, bit :: bits => readBitsAcc (2 * acc + (if bit then 1 else 0)) n bits

/-- GolombDecoder::decode: unary quotient, then the truncated binary
remainder; the returned uint32 wraps modulo 2^32. -/
def golombDecode (M : Nat) (bits : List Bool) : Option (Nat × List Bool) :=
  match readUnary bits with
  | none => none
  | some (q, r1) =>
    match readBitsAcc 0 (golombB M - 1) r1 with
    | none => none
    | some (r, r2) =>
      if r < 2 ^ golombB M - M then some ((q * M + r) % 4294967296, r2)
      else
        match readBitsAcc 0 1 r2 with
        | none => none
        | some (nb, r3) =>
          some ((q * M + (2 * r + nb - (2 ^ golombB M - M))) % 4294967296, r3)

/-- The value of one full byte of bits, most significant first. -/
def byteValBits (bs : List Bool) : Nat :=
  bs.foldl (fun a bit => 2 * a + (if bit then 1 else 0)) 0

/-- Pack a bit list whose length is a multiple of eight into bytes. -/
def packBits : List Bool → List Nat
  | b0 :: b1 :: b2 :: b3 :: b4 :: b5 :: b6 :: b7 :: rest =>
    byteValBits [b0, b1, b2, b3, b4, b5, b6, b7] :: packBits rest
  | _ => []

/-- Zero-pad a bit list to a byte boundary (the final partial byte that
BitWriter::getData flushes has its unused low bits at zero). -/
def padBits (bits : List Bool) : List Bool :=
  bits ++ List.replicate ((8 - bits.length % 8) % 8) false

/-- BitWriter::getData: the bit stream packed into bytes. -/
def bytesOfBits (bits : List Bool) : List Nat :=
  packBits (padBits bits)

/-- The bits of one byte as BitReader reads them, most significant first. -/
def bitsOfByte (v : Nat) : List Bool :=
  [v.testBit 7, v.testBit 6, v.testBit 5, v.testBit 4,
   v.testBit 3, v.testBit 2, v.testBit 1, v.testBit 0]

/-- The bit stream a BitReader yields over a byte vector. -/
def bitsOfBytes (bytes : List Nat) : List Bool :=
  (bytes.map bitsOfByte).flatten

/-- The positions loop of the Golomb serializer: delta-encode the positions
with M_POS = 16. -/
def encodePositionsG : Nat → List Nat → List Bool
  | _, [] => []
  | prev, p :: rest => golombEncode (sub32 p prev) 16 ++ encodePositionsG p rest

/-- One item in the Golomb format: delta doc_id with M_DOC = 128, the
positions count with M = 8, then the delta-coded positions. -/
def encodeItemG (prev : Nat) (it : PItem) : List Bool :=
  golombEncode (sub32 it.1 prev) 128 ++ golombEncode (it.2.length % 4294967296) 8 ++
    encodePositionsG 0 it.2

/-- The items loop of the Golomb serializer, threading the previous
doc_id. -/
def encodeItemsG : Nat → PList → List Bool
  | _, [] => []
  | prev, it :: rest => encodeItemG prev it ++ encodeItemsG it.1 rest

/-- PostingsList::serialize with CompressMethod::GOLOMB: the raw 32-bit
items_count followed by the packed bit stream. -/
def serializeGolomb (L : PList) : List Nat :=
  u32le (L.length % 4294967296) ++ bytesOfBits (encodeItemsG 0 L)

/-- The positions loop of the Golomb deserializer; a decoding failure
aborts the whole item (the exception propagates). -/
def decodePositionsG : Nat → Nat → List Bool → Option (List Nat × List Bool)
  | 0, _, bits => some ([], bits)
  | j + 1, prev, bits =>
    match golombDecode 16 bits with
    | none => none
    | some (delta, r) =>
      match decodePositionsG j (add32 prev delta) r with
      | none => none
      | some (ps, r2) => some (add32 prev delta :: ps, r2)

/-- The items loop of the Golomb deserializer: stop at end of stream, and
on a decoding exception keep the items decoded so far. -/
def decodeItemsG : Nat → Nat → List Bool → PList
  | 0, _, _ => []
  | i + 1, prev, bits =>
    if bits.isEmpty then []
    else
      match golombDecode 128 bits with
      | none => []
      | some (delta, r1) =>
        match golombDecode 8 r1 with
        | none => []
        | some (pc, r2) =>
          match decodePositionsG (int32LoopCount pc) 0 r2 with
          | none => []
          | some (ps, r3) => (add32 prev delta, ps) :: decodeItemsG i (add32 prev delta) r3

/-- PostingsList::deserialize with CompressMethod::GOLOMB. -/
def deserializeGolomb (bytes : List Nat) : PList :=
  match bytes with
  | b0 :: b1 :: b2 :: b3 :: rest =>
    decodeItemsG (int32LoopCount (u32val b0 b1 b2 b3)) 0 (bitsOfBytes rest)
  | _ => []

/-- PostingsList::serialize, dispatching on the compression method. -/
def serialize (m : CompressMethod) (L : PList) : List Nat :=
  match m with
  | .GOLOMB => serializeGolomb L
  | .NONE => serializeNone L

/-- PostingsList::deserialize, dispatching on the compression method. -/
def deserialize (m : CompressMethod) (bytes : List Nat) : PList :=
  match m with
  | .GOLOMB => deserializeGolomb bytes
  | .NONE => deserializeNone bytes

/-- The machine-width side conditions a real PostingsList satisfies: item
and position counts fit a signed int32 and doc_ids/positions fit 32 bits. -/
def BoundedPList (L : PList) : Prop :=
  L.length < 2147483648 ∧
    ∀ it ∈ L, it.1 < 4294967296 ∧ it.2.length < 2147483648 ∧ ∀ p ∈ it.2, p < 4294967296

instance (L : PList) : Decidable (BoundedPList L) :=
  inferInstanceAs (Decidable (_ ∧ _))

/-- Adjacent non-decreasing check on a list of naturals, used to give the
sortedness hypotheses a kernel-reducible decision procedure. -/
def chainLeBool : List Nat → Bool
  | [] => true
  | [_] => true
  | a :: b :: t => decide (a ≤ b) && chainLeBool (b :: t)

/-! ## Token store and flush (database.cpp, wiser_environment.cpp)

The tokens table is a list of rows; UPDATE tokens SET docs_count, postings
WHERE id is a map over the rows. The SQL transaction of the underlying
store (sqlite, external to this repository) has snapshot semantics: a
rollback restores the rows as they were at begin, a commit keeps the
updates. Failures of beginTransaction, updatePostings and
commitTransaction are injected through an oracle. -/

/-- A row of the tokens table: id, token text, docs_count, postings
blob. -/
structure TokenRow where
  id : Nat
  text : List Nat
  docsCount : Nat
  postings : List Nat
deriving DecidableEq

/-- Database::getPostings: the docs_count and postings blob of the row
with the given token id. -/
def getPostingsRow (rows : List TokenRow) (tid : Nat) : Option (Nat × List Nat) :=
  (rows.find? (fun r => r.id == tid)).map (fun r => (r.docsCount, r.postings))

/-- Database::updatePostings: UPDATE tokens SET docs_count = ?, postings = ?
WHERE id = ?. -/
def updatePostingsRow (rows : List TokenRow) (tid dc : Nat) (bytes : List Nat) :
    List TokenRow :=
  rows.map (fun r => if r.id == tid then { r with docsCount := dc, postings := bytes } else r)

/-- The list a flush persists for one token: when the store has a non-empty
blob for the token, the deserialized existing list merged with the buffered
list; otherwise the buffered list itself. -/
def flushMergedList (m : CompressMethod) (rows : List TokenRow) (tid : Nat) (pl : PList) :
    PList :=
  match getPostingsRow rows tid with
  | some (_, bytes) => if bytes.isEmpty then pl else mergeLists (deserialize m bytes) pl
  | none => pl

/-- Failure oracle for one flush: whether beginTransaction fails, whether
the k-th updatePostings call fails, and whether commitTransaction fails. -/
structure FlushFaults where
  beginFail : Bool
  updFail : Nat → Bool
  commitFail : Bool

/-- The per-token loop of WiserEnvironment::flushIndexBuffer inside the
transaction; a failing updatePostings throws (modelled as none). -/
def flushLoop (m : CompressMethod) (f : Nat → Bool) :
    Nat → List TokenRow → List (Nat × PList) → Option (List TokenRow)
  | _, rows, [] => some rows
  | k, rows, (tid, pl) :: rest =>
    if f k then none
    else
      flushLoop m f (k + 1)
        (updatePostingsRow rows tid (flushMergedList m rows tid pl).length
          (serialize m (flushMergedList m rows tid pl)))
        rest

/-- WiserEnvironment::flushIndexBuffer: nothing happens on an empty buffer;
a failing begin returns early, before the buffer is cleared; after a
successful begin, a throwing step or a failing commit rolls the rows back
to the pre-flush snapshot and the buffer is cleared; on success the updated
rows are committed and the buffer is cleared. -/
def flushIndexBufferModel (m : CompressMethod) (f : FlushFaults)
    (rows : List TokenRow) (buffer : List (Nat × PList)) :
    List TokenRow × List (Nat × PList) :=
  if buffer.isEmpty then (rows, buffer)
  else if f.beginFail then (rows, buffer)
  else
    match flushLoop m f.updFail 0 rows buffer with
    | none => (rows, [])
    | some rows2 => if f.commitFail then (rows, []) else (rows2, [])

/-- The row Database::getTokenInfo inserts for a fresh token: docs_count 0
and an empty postings blob. -/
def freshTokenRow (tid : Nat) (text : List Nat) : TokenRow :=
  { id := tid, text := text, docsCount := 0, postings := [] }

/-! ## Phrase filter (search_engine.cpp filterByPhrase) -/

/-- The two-pointer matching loop of SearchEngine::filterByPhrase: walk the
current chain positions and the next token's positions, keeping need =
current + 1 when it is found. Each step consumes one element from one of
the two lists, so the sum of lengths is enough fuel. -/
def twoPointerLoop : Nat → List Nat → List Nat → List Nat
  | 0, _, _ => []
  | _ + 1, [], _ => []
  | _ + 1, _ :: _, [] => []
  | fuel + 1, c :: cs, x :: xs =>
    if x = c + 1 then (c + 1) :: twoPointerLoop fuel cs xs
    else if x < c + 1 then twoPointerLoop fuel (c :: cs) xs
    else twoPointerLoop fuel cs (x :: xs)

/-- The advanced position chain for one query token. -/
def twoPointerAdvance (cur nxt : List Nat) : List Nat :=
  twoPointerLoop (cur.length + nxt.length) cur nxt

/-- The per-token advancement loop over the remaining tokens: a missing
position entry for the document fails, an empty advanced chain fails. -/
def phraseChainOk : List Nat → List (Option (List Nat)) → Bool
  | _, [] => true
  | _, none :: _ => false
  | cur, some nxt :: rest =>
    if (twoPointerAdvance cur nxt).isEmpty then false
    else phraseChainOk (twoPointerAdvance cur nxt) rest

/-- Whether one candidate document passes the phrase check, given the
per-token position lookups for that document. -/
def phraseDocOk : List (Option (List Nat)) → Bool
  | [] => true
  | none :: _ => false
  | some ps :: rest => phraseChainOk ps rest

/-- SearchEngine::filterByPhrase: filter the candidates by the phrase check
when phrase search is enabled and the query has more than one token;
otherwise return the candidates unchanged. posMaps holds, per query token,
the doc_id to positions map of the fetched postings. -/
def filterByPhrase (enabled : Bool) (posMaps : List PList) (candidates : List Nat) :
    List Nat :=
  if enabled && decide (1 < posMaps.length) then
    candidates.filter (fun d => phraseDocOk (posMaps.map (fun mp => lookupDoc mp d)))
  else candidates

/-- The positions list recorded for document d by the i-th token's map
(empty when the document is absent). -/
def posOf (posMaps : List PList) (i : Nat) (d : Nat) : List Nat :=
  match lookupDoc (posMaps.getD i []) d with
  | some l => l
  | none => []

/-- The positions behind an optional lookup result. -/
def optPos : Option (List Nat) → List Nat
  | none => []
  | some l => l

/-! ## Query dispatch and LIKE fallback (search_engine.cpp, database.cpp) -/

/-- Database::getTokenInfo with insert = false: look the token text up in
the tokens table, returning id and docs_count. -/
def lookupTokenId (rows : List TokenRow) (text : List Nat) : Option (Nat × Nat) :=
  (rows.find? (fun r => r.text == text)).map (fun r => (r.id, r.docsCount))

/-- SearchEngine::getTokenIds: form the query-side token texts and keep, in
order, the ids of those present in the store with a positive id. -/
def getTokenIdsModel (rows : List TokenRow) (n : Nat) (queryBytes : List Nat) : List Nat :=
  (queryTokenTexts n (utf8ToUtf32 queryBytes)).filterMap (fun tok =>
    match lookupTokenId rows tok with
    | some (id, _) => if 0 < id then some id else none
    | none => none)

/-- A row of the documents table: id, title, body, token_count. -/
structure DocRow where
  id : Nat
  title : List Nat
  body : List Nat
  tokenCount : Nat
deriving DecidableEq

/-- Whether the second byte list is a leading segment of the first. -/
def bytesStartsWith : List Nat → List Nat → Bool
  | _, [] => true
  | [], _ :: _ => false
  | h :: hs, n :: ns => h == n && bytesStartsWith hs ns

/-- SQLite instr(X, Y) > 0: the needle occurs as a contiguous byte
substring of the haystack. -/
def bytesContains : List Nat → List Nat → Bool
  | [], needle => bytesStartsWith [] needle
  | h :: t, needle => bytesStartsWith (h :: t) needle || bytesContains t needle

/-- Database::searchDocumentsLike: SELECT id FROM documents WHERE
instr(title, ?) > 0 OR instr(body, ?) > 0 ORDER BY id. -/
def searchDocumentsLike (docs : List DocRow) (needle : List Nat) : List Nat :=
  List.insertionSort (· ≤ ·)
    ((docs.filter (fun doc =>
      bytesContains doc.title needle || bytesContains doc.body needle)).map DocRow.id)

/-- The observable shape of SearchEngine::rankQuery: either the LIKE
fallback result (step 2) or the ranked pipeline (steps 3-7, carried here by
the resolved token ids; postings fetch, intersection, phrase filter and
scoring are modelled separately). -/
inductive QueryResult where
  | likeFallback (ids : List Nat)
  | ranked (tokenIds : List Nat)
deriving DecidableEq

/-- Steps 1-2 of SearchEngine::rankQuery: resolve the token ids and fall
back to the LIKE substring search exactly when none resolved. -/
def rankQueryDispatch (tokens : List TokenRow) (docs : List DocRow) (n : Nat)
    (query : List Nat) : QueryResult :=
  if (getTokenIdsModel tokens n query).isEmpty then
    QueryResult.likeFallback (searchDocumentsLike docs query)
  else
    QueryResult.ranked (getTokenIdsModel tokens n query)

/-! ## Environment and addDocument (wiser_environment.cpp) -/

/-- The state WiserEnvironment::addDocument touches: the configuration
fields it reads, the document and token tables of the store (modelled as
reliable; store failures are exercised in the flush model), the in-memory
buffer, the doc-length cache with the running total, and the indexed
counter. -/
structure EnvM where
  tokenLen : Nat
  bufferUpdateThreshold : Int
  maxIndexCount : Int
  compress : CompressMethod
  indexedCount : Nat
  docs : List DocRow
  nextDocId : Nat
  tokens : List TokenRow
  nextTokenId : Nat
  buffer : List (Nat × PList)
  cache : List (Nat × Nat)
  totalTokens : Int
deriving DecidableEq

/-- WiserEnvironment::hasReachedIndexLimit: max_index_count ≥ 0 and
indexed_count ≥ max_index_count. -/
def hasReachedIndexLimit (env : EnvM) : Bool :=
  decide (0 ≤ env.maxIndexCount) && decide (env.maxIndexCount ≤ (env.indexedCount : Int))

/-- Database::addDocument: INSERT the row, or on a title conflict UPDATE
only the body, keeping id and token_count. -/
def dbAddDocument (env : EnvM) (title body : List Nat) : EnvM :=
  if env.docs.any (fun doc => doc.title == title) then
    { env with docs := env.docs.map (fun doc =>
        if doc.title == title then { doc with body := body } else doc) }
  else
    { env with
        docs := env.docs ++ [{ id := env.nextDocId, title := title, body := body,
                               tokenCount := 0 }],
        nextDocId := env.nextDocId + 1 }

/-- Database::getDocumentId: SELECT id FROM documents WHERE title = ?,
returning 0 when absent. -/
def getDocumentId (env : EnvM) (title : List Nat) : Nat :=
  match env.docs.find? (fun doc => doc.title == title) with
  | some doc => doc.id
  | none => 0

/-- Database::getTokenInfo with insert = true: return the existing id, or
insert a fresh row (docs_count 0, empty postings) and return the new id. -/
def getTokenInfoInsert (env : EnvM) (text : List Nat) : EnvM × Nat :=
  match env.tokens.find? (fun r => r.text == text) with
  | some r => (env, r.id)
  | none =>
    ({ env with
        tokens := env.tokens ++ [freshTokenRow env.nextTokenId text],
        nextTokenId := env.nextTokenId + 1 }, env.nextTokenId)

/-- The emission loop of Tokenizer::textToPostingsLists:
tokenToPostingsList resolves or creates each token id and adds the posting
to the buffer (skipping tokens whose id is invalid); the position advances
by one per emitted token. -/
def ingestIntoBuffer (env : EnvM) (did : Nat) : List (List Nat) → Nat → EnvM
  | [], _ => env
  | tok :: rest, pos =>
    let r := getTokenInfoInsert env tok
    let env2 := if 0 < r.2 then
        { r.1 with buffer := indexAddPosting r.1.buffer r.2 did pos }
      else r.1
    ingestIntoBuffer env2 did rest (pos + 1)

/-- Database::updateDocumentTokenCount. -/
def updateDocTokenCount (env : EnvM) (did count : Nat) : EnvM :=
  { env with docs := env.docs.map (fun doc =>
      if doc.id == did then { doc with tokenCount := count } else doc) }

/-- Lookup in the doc-length cache. -/
def cacheLookup (cache : List (Nat × Nat)) (did : Nat) : Option Nat :=
  (cache.find? (fun e => e.1 == did)).map Prod.snd

/-- WiserEnvironment::flushIndexBuffer as called from addDocument, with the
store succeeding (store failures are exercised through the fault oracle of
the flush model). -/
def flushEnv (env : EnvM) : EnvM :=
  { env with
      tokens := (flushIndexBufferModel env.compress ⟨false, fun _ => false, false⟩
        env.tokens env.buffer).1,
      buffer := (flushIndexBufferModel env.compress ⟨false, fun _ => false, false⟩
        env.tokens env.buffer).2 }

/-- WiserEnvironment::addDocument: the empty-title separator returns when
the buffer is non-empty (its flush call is commented out in the source); a
reached index limit returns untouched; an empty body is rejected; otherwise
the document row is upserted, the body tokenized into the buffer, the
token count and cache updated, the counter incremented; reaching the limit
now returns without a flush (also commented out), else a full buffer
triggers the threshold flush. -/
def addDocumentModel (env : EnvM) (title body : List Nat) : EnvM :=
  if title = [] ∧ env.buffer ≠ [] then env
  else if hasReachedIndexLimit env then env
  else if body = [] then env
  else
    let env1 := dbAddDocument env title body
    let did := getDocumentId env1 title
    if did = 0 then env1
    else
      let toks := ingestTokenTexts env1.tokenLen (utf8ToUtf32 body)
      let env2 := ingestIntoBuffer env1 did toks 0
      let env3 := updateDocTokenCount env2 did toks.length
      let env4 :=
        match cacheLookup env3.cache did with
        | none =>
          { env3 with
              totalTokens := env3.totalTokens + (toks.length : Int),
              cache := env3.cache ++ [(did, toks.length)] }
        | some old =>
          { env3 with
              totalTokens := env3.totalTokens + ((toks.length : Int) - (old : Int)),
              cache := env3.cache.map (fun e : Nat × Nat =>
                if e.1 == did then (e.1, toks.length) else e) }
      let env5 := { env4 with indexedCount := env4.indexedCount + 1 }
      if hasReachedIndexLimit env5 = true ∧ env5.buffer ≠ [] then env5
      else if 0 < env5.bufferUpdateThreshold ∧
          env5.bufferUpdateThreshold ≤ (env5.buffer.length : Int) then flushEnv env5
      else env5

/-! ### Lemmas about the postings operations -/

theorem chainLtBool_iff (l : List Nat) :
    chainLtBool l = true ↔ List.Chain' (· < ·) l := by
  induction l with
  | nil => simp [chainLtBool]
  | cons a t ih =>
    cases t with
    | nil => simp [chainLtBool]
    | cons b t2 =>
      rw [chainLtBool, List.chain'_cons, Bool.and_eq_true, decide_eq_true_iff, ih]

instance (items : PList) : Decidable (docIdsSorted items) :=
  decidable_of_iff _ (chainLtBool_iff (items.map Prod.fst))

theorem lookupDoc_cons (d0 : Nat) (ps : List Nat) (l : PList) (d : Nat) :
    lookupDoc ((d0, ps) :: l) d = if d0 = d then some ps else lookupDoc l d := by
  by_cases h : d0 = d
  · rw [if_pos h, lookupDoc, List.find?_cons_of_pos _ (by simpa using h)]
    rfl
  · rw [if_neg h, lookupDoc, List.find?_cons_of_neg _ (by simpa using h)]
    rfl

theorem lookupDoc_append (l1 l2 : PList) (d : Nat) :
    lookupDoc (l1 ++ l2) d =
      match lookupDoc l1 d with
      | some v => some v
      | none => lookupDoc l2 d := by
  induction l1 with
  | nil => simp [lookupDoc]
  | cons it t ih =>
    obtain ⟨d0, ps⟩ := it
    by_cases h : d0 = d
    · simp [List.cons_append, lookupDoc_cons, h]
    · simpa [List.cons_append, lookupDoc_cons, h] using ih

theorem lookupDoc_eq_none_iff (l : PList) (d : Nat) :
    lookupDoc l d = none ↔ d ∉ l.map Prod.fst := by
  induction l with
  | nil => simp [lookupDoc]
  | cons it t ih =>
    obtain ⟨d0, ps⟩ := it
    by_cases h : d0 = d
    · simp [lookupDoc_cons, h]
    · simp [lookupDoc_cons, h, ih, Ne.symm h]

theorem lookupDoc_eq_some_iff (l : PList) (d : Nat) (v : List Nat)
    (hn : (l.map Prod.fst).Nodup) :
    lookupDoc l d = some v ↔ (d, v) ∈ l := by
  induction l with
  | nil => simp [lookupDoc]
  | cons it t ih =>
    obtain ⟨d0, ps⟩ := it
    simp only [List.map_cons, List.nodup_cons] at hn
    by_cases h : d0 = d
    · subst h
      rw [lookupDoc_cons, if_pos rfl, List.mem_cons]
      constructor
      · intro hv
        obtain rfl : ps = v := by injection hv
        exact Or.inl rfl
      · rintro (hv | hv)
        · injection hv with h1 h2
          rw [h2]
        · exact absurd (List.mem_map_of_mem Prod.fst hv) hn.1
    · rw [lookupDoc_cons, if_neg h, List.mem_cons, ih hn.2]
      constructor
      · intro hv; exact Or.inr hv
      · rintro (hv | hv)
        · exact absurd (congrArg Prod.fst hv).symm h
        · exact hv

theorem lookupDoc_perm (l l' : PList) (h : l.Perm l')
    (hn : (l.map Prod.fst).Nodup) (d : Nat) :
    lookupDoc l d = lookupDoc l' d := by
  have hn' : (l'.map Prod.fst).Nodup := ((h.map Prod.fst).nodup_iff).mp hn
  cases hx : lookupDoc l d with
  | none =>
    rw [lookupDoc_eq_none_iff] at hx
    have : d ∉ l'.map Prod.fst := fun hc => hx (((h.map Prod.fst).mem_iff).mpr hc)
    exact ((lookupDoc_eq_none_iff l' d).mpr this).symm
  | some v =>
    have hv : (d, v) ∈ l := (lookupDoc_eq_some_iff l d v hn).mp hx
    exact ((lookupDoc_eq_some_iff l' d v hn').mpr (h.mem_iff.mp hv)).symm

theorem docIdsSorted_nodup_keys {l : PList} (h : docIdsSorted l) :
    (l.map Prod.fst).Nodup := by
  have hp : List.Pairwise (· < ·) (l.map Prod.fst) :=
    (List.chain'_iff_pairwise).mp h
  exact hp.imp Nat.ne_of_lt

theorem docIdsSorted_of_sorted_nodup {l : PList}
    (h1 : List.Sorted docIdLe l) (h2 : (l.map Prod.fst).Nodup) : docIdsSorted l := by
  rw [docIdsSorted, List.chain'_iff_pairwise]
  have hle : List.Pairwise (· ≤ ·) (l.map Prod.fst) :=
    (List.pairwise_map).mpr h1
  have hne : List.Pairwise (· ≠ ·) (l.map Prod.fst) := h2
  exact (hle.and hne).imp (fun hab => Nat.lt_of_le_of_ne hab.1 hab.2)

theorem keys_update (l : PList) (d : Nat) (ps : List Nat) :
    ((l.map (fun it => if it.1 == d then (it.1, it.2 ++ ps) else it)).map Prod.fst) =
      l.map Prod.fst := by
  rw [List.map_map]
  apply List.map_congr_left
  intro it _
  by_cases h : it.1 = d <;> simp [h]

theorem lookupDoc_update (l : PList) (d : Nat) (ps : List Nat) (d' : Nat) :
    lookupDoc (l.map (fun it => if it.1 == d then (it.1, it.2 ++ ps) else it)) d' =
      if d' = d then (lookupDoc l d).map (· ++ ps) else lookupDoc l d' := by
  induction l with
  | nil => by_cases h : d' = d <;> simp [lookupDoc, h]
  | cons it t ih =>
    obtain ⟨d0, ps0⟩ := it
    by_cases h0 : d0 = d
    · subst h0
      have hmap : List.map (fun it : PItem => if it.1 == d0 then (it.1, it.2 ++ ps) else it)
          ((d0, ps0) :: t) =
          (d0, ps0 ++ ps) ::
            List.map (fun it : PItem => if it.1 == d0 then (it.1, it.2 ++ ps) else it) t := by
        simp
      rw [hmap]
      by_cases h' : d' = d0
      · subst h'
        rw [lookupDoc_cons, if_pos rfl, if_pos rfl, lookupDoc_cons, if_pos rfl]
        rfl
      · rw [lookupDoc_cons, if_neg (fun hc => h' hc.symm), ih, if_neg h', if_neg h',
          lookupDoc_cons, if_neg (fun hc => h' hc.symm)]
    · have hmap : List.map (fun it : PItem => if it.1 == d then (it.1, it.2 ++ ps) else it)
          ((d0, ps0) :: t) =
          (d0, ps0) ::
            List.map (fun it : PItem => if it.1 == d then (it.1, it.2 ++ ps) else it) t := by
        simp [h0]
      rw [hmap]
      by_cases h'' : d0 = d'
      · rw [lookupDoc_cons, if_pos h'', if_neg (fun hc : d' = d => h0 (h''.trans hc)),
          lookupDoc_cons, if_pos h'']
      · rw [lookupDoc_cons, if_neg h'', ih, lookupDoc_cons, if_neg h0,
          lookupDoc_cons, if_neg h'']

theorem isSome_lookupDoc_of_any {l : PList} {d : Nat}
    (h : l.any (fun it => it.1 == d) = true) : ∃ v, lookupDoc l d = some v := by
  induction l with
  | nil => simp at h
  | cons it t ih =>
    obtain ⟨d0, ps0⟩ := it
    by_cases h0 : d0 = d
    · exact ⟨ps0, by rw [lookupDoc_cons, if_pos h0]⟩
    · simp only [List.any_cons, Bool.or_eq_true] at h
      rcases h with h | h
      · exact absurd (by simpa using h) h0
      · obtain ⟨v, hv⟩ := ih h
        exact ⟨v, by rw [lookupDoc_cons, if_neg h0]; exact hv⟩

theorem not_mem_keys_of_not_any {l : PList} {d : Nat}
    (h : l.any (fun it => it.1 == d) = false) : d ∉ l.map Prod.fst := by
  intro hc
  rw [List.mem_map] at hc
  obtain ⟨it, hit, hfst⟩ := hc
  have : l.any (fun it => it.1 == d) = true :=
    List.any_eq_true.mpr ⟨it, hit, by simp [hfst]⟩
  rw [this] at h; exact Bool.noConfusion h

theorem addPositionsForDoc_sorted {A : PList} (hA : docIdsSorted A)
    (d : Nat) (ps : List Nat) : docIdsSorted (addPositionsForDoc A d ps) := by
  rw [addPositionsForDoc]
  by_cases h : A.any (fun it => it.1 == d) = true
  · rw [if_pos h, docIdsSorted, keys_update]
    exact hA
  · rw [if_neg h]
    have hfresh : d ∉ A.map Prod.fst :=
      not_mem_keys_of_not_any (Bool.eq_false_iff.mpr h)
    have hnodup : ((A ++ [(d, ps)]).map Prod.fst).Nodup := by
      rw [List.map_append]
      simp only [List.map_cons, List.map_nil]
      rw [List.nodup_append]
      refine ⟨docIdsSorted_nodup_keys hA, List.nodup_singleton d, ?_⟩
      intro a ha hc
      rw [List.mem_singleton] at hc
      exact hfresh (hc ▸ ha)
    have hperm : (sortByDocId (A ++ [(d, ps)])).Perm (A ++ [(d, ps)]) :=
      List.perm_insertionSort docIdLe (A ++ [(d, ps)])
    have hsorted : List.Sorted docIdLe (sortByDocId (A ++ [(d, ps)])) :=
      List.sorted_insertionSort docIdLe (A ++ [(d, ps)])
    have hnodup' : ((sortByDocId (A ++ [(d, ps)])).map Prod.fst).Nodup :=
      ((hperm.map Prod.fst).nodup_iff).mpr hnodup
    exact docIdsSorted_of_sorted_nodup hsorted hnodup'

theorem addPositionsForDoc_lookup {A : PList} (hA : docIdsSorted A)
    (d : Nat) (ps : List Nat) (d' : Nat) :
    lookupDoc (addPositionsForDoc A d ps) d' =
      if d' = d then
        match lookupDoc A d with
        | some pa => some (pa ++ ps)
        | none => some ps
      else lookupDoc A d' := by
  rw [addPositionsForDoc]
  by_cases h : A.any (fun it => it.1 == d) = true
  · rw [if_pos h, lookupDoc_update]
    obtain ⟨v, hv⟩ := isSome_lookupDoc_of_any h
    by_cases h' : d' = d
    · rw [if_pos h', if_pos h', hv]
      rfl
    · rw [if_neg h', if_neg h']
  · rw [if_neg h]
    have hfresh : d ∉ A.map Prod.fst :=
      not_mem_keys_of_not_any (Bool.eq_false_iff.mpr h)
    have hnone : lookupDoc A d = none := (lookupDoc_eq_none_iff A d).mpr hfresh
    have hnodup : ((A ++ [(d, ps)]).map Prod.fst).Nodup := by
      rw [List.map_append]
      simp only [List.map_cons, List.map_nil]
      rw [List.nodup_append]
      refine ⟨docIdsSorted_nodup_keys hA, List.nodup_singleton d, ?_⟩
      intro a ha hc
      rw [List.mem_singleton] at hc
      exact hfresh (hc ▸ ha)
    have hperm : (sortByDocId (A ++ [(d, ps)])).Perm (A ++ [(d, ps)]) :=
      List.perm_insertionSort docIdLe (A ++ [(d, ps)])
    rw [lookupDoc_perm (sortByDocId (A ++ [(d, ps)])) (A ++ [(d, ps)]) hperm
      (((hperm.map Prod.fst).nodup_iff).mpr hnodup) d']
    rw [lookupDoc_append]
    by_cases h' : d' = d
    · subst h'
      rw [hnone]
      simp [lookupDoc_cons]
    · have hdd : ¬ d = d' := fun hc => h' hc.symm
      rw [if_neg h']
      cases hx : lookupDoc A d' with
      | none =>
        show lookupDoc [(d, ps)] d' = none
        rw [lookupDoc_cons, if_neg hdd]
        rfl
      | some v =>
        rfl

theorem mergeLists_sorted {A : PList} (B : PList) (hA : docIdsSorted A) :
    docIdsSorted (mergeLists A B) := by
  induction B generalizing A with
  | nil => exact hA
  | cons it t ih =>
    exact ih (addPositionsForDoc_sorted hA it.1 it.2)

theorem mergeLists_lookup (B : PList) :
    ∀ A : PList, docIdsSorted A → docIdsSorted B → ∀ d,
      lookupDoc (mergeLists A B) d =
        match lookupDoc A d, lookupDoc B d with
        | some pa, some pb => some (pa ++ pb)
        | some pa, none => some pa
        | none, some pb => some pb
        | none, none => none := by
  induction B with
  | nil =>
    intro A _ _ d
    show lookupDoc A d = _
    cases hx : lookupDoc A d <;> rfl
  | cons it t ih =>
    obtain ⟨d0, ps0⟩ := it
    intro A hA hB d
    have hA' := addPositionsForDoc_sorted hA d0 ps0
    have h1 : List.Chain' (· < ·) (d0 :: t.map Prod.fst) := by
      simpa [docIdsSorted] using hB
    have hBt : docIdsSorted t := h1.tail
    have hstep : mergeLists A ((d0, ps0) :: t) = mergeLists (addPositionsForDoc A d0 ps0) t := rfl
    have hd0 : lookupDoc t d0 = none := by
      rw [lookupDoc_eq_none_iff]
      intro hc
      exact Nat.lt_irrefl d0 (List.rel_of_pairwise_cons ((List.chain'_iff_pairwise).mp h1) hc)
    rw [hstep, ih (addPositionsForDoc A d0 ps0) hA' hBt d,
      addPositionsForDoc_lookup hA d0 ps0 d, lookupDoc_cons]
    by_cases hd : d = d0
    · subst hd
      rw [if_pos rfl, if_pos rfl, hd0]
      cases lookupDoc A d <;> rfl
    · rw [if_neg hd, if_neg (fun hc => hd hc.symm)]

theorem applyBufferOp_inv {idx : List (Nat × PList)} (op : BufferOp)
    (h : ∀ e ∈ idx, docIdsSorted e.2) :
    ∀ e ∈ applyBufferOp idx op, docIdsSorted e.2 := by
  cases op with
  | addPosting t d p =>
    intro e he
    rw [applyBufferOp, indexAddPosting] at he
    by_cases hany : idx.any (fun e => e.1 == t) = true
    · rw [if_pos hany] at he
      rw [List.mem_map] at he
      obtain ⟨e0, he0, rfl⟩ := he
      by_cases ht : (e0.1 == t) = true
      · rw [if_pos ht]
        exact addPositionsForDoc_sorted (h e0 he0) d [p]
      · rw [if_neg ht]
        exact h e0 he0
    · rw [if_neg hany, List.mem_append] at he
      rcases he with he | he
      · exact h e he
      · rw [List.mem_singleton] at he
        subst he
        exact addPositionsForDoc_sorted (A := [])
          (show docIdsSorted [] from List.chain'_nil) d [p]
  | mergePostings t other =>
    intro e he
    rw [applyBufferOp] at he
    rw [List.mem_map] at he
    obtain ⟨e0, he0, rfl⟩ := he
    by_cases ht : (e0.1 == t) = true
    · rw [if_pos ht]
      exact mergeLists_sorted other (h e0 he0)
    · rw [if_neg ht]
      exact h e0 he0

theorem applyBufferOps_inv (ops : List BufferOp) :
    ∀ e ∈ applyBufferOps ops, docIdsSorted e.2 := by
  suffices h : ∀ idx : List (Nat × PList), (∀ e ∈ idx, docIdsSorted e.2) →
      ∀ e ∈ ops.foldl applyBufferOp idx, docIdsSorted e.2 by
    exact h [] (by intro e he; cases he)
  induction ops with
  | nil => intro idx h e he; exact h e he
  | cons op t ih =>
    intro idx h
    exact ih (applyBufferOp idx op) (applyBufferOp_inv op h)

/-! ### Round trip of the NONE codec -/

theorem u32val_u32le (v : Nat) (hv : v < 4294967296) :
    u32val (v % 256) (v / 256 % 256) (v / 65536 % 256) (v / 16777216 % 256) = v := by
  rw [u32val]
  omega

theorem u32le_append (v : Nat) (y : List Nat) :
    u32le v ++ y = v % 256 :: v / 256 % 256 :: v / 65536 % 256 :: v / 16777216 % 256 :: y :=
  rfl

theorem readPositionsNone_cons4 (j b0 b1 b2 b3 : Nat) (rest : List Nat) :
    readPositionsNone (j + 1) (b0 :: b1 :: b2 :: b3 :: rest) =
      (u32val b0 b1 b2 b3 :: (readPositionsNone j rest).1, (readPositionsNone j rest).2) :=
  rfl

theorem readPositionsNone_encode (ps : List Nat) (h : ∀ p ∈ ps, p < 4294967296)
    (rest : List Nat) :
    readPositionsNone ps.length ((ps.map (fun p => u32le (p % 4294967296))).flatten ++ rest) =
      (ps, rest) := by
  induction ps with
  | nil => rfl
  | cons p t ih =>
    have hp : p < 4294967296 := h p (List.mem_cons_self p t)
    have hmod : p % 4294967296 = p := Nat.mod_eq_of_lt hp
    rw [List.map_cons, List.flatten_cons, List.append_assoc, hmod, u32le_append,
      List.length_cons, readPositionsNone_cons4,
      ih (fun p hp' => h p (List.mem_cons_of_mem _ hp')), u32val_u32le p hp]

theorem readItemsNone_cons8 (i b0 b1 b2 b3 c0 c1 c2 c3 : Nat) (rest2 : List Nat) :
    readItemsNone (i + 1) (b0 :: b1 :: b2 :: b3 :: c0 :: c1 :: c2 :: c3 :: rest2) =
      (u32val b0 b1 b2 b3,
        (readPositionsNone (int32LoopCount (u32val c0 c1 c2 c3)) rest2).1) ::
        readItemsNone i (readPositionsNone (int32LoopCount (u32val c0 c1 c2 c3)) rest2).2 :=
  rfl

theorem readItemsNone_encode (L : PList) (hb : BoundedPList L) (rest : List Nat) :
    readItemsNone L.length ((L.map serializeItemNone).flatten ++ rest) = L := by
  induction L with
  | nil => rfl
  | cons it t ih =>
    obtain ⟨d, ps⟩ := it
    obtain ⟨hlen, hall⟩ := hb
    obtain ⟨hd, hpslen, hps⟩ := hall (d, ps) (List.mem_cons_self _ _)
    have hbt : BoundedPList t := by
      refine ⟨by simpa using Nat.lt_of_le_of_lt (Nat.le_succ t.length) (by simpa using hlen), ?_⟩
      intro it' hit'
      exact hall it' (List.mem_cons_of_mem _ hit')
    have hdmod : d % 4294967296 = d := Nat.mod_eq_of_lt hd
    have hlmod : ps.length % 4294967296 = ps.length :=
      Nat.mod_eq_of_lt (Nat.lt_trans hpslen (by omega))
    have hps' : ∀ p ∈ ps, p < 4294967296 := hps
    have hpslen' : ps.length < 2147483648 := hpslen
    rw [List.map_cons, List.flatten_cons, List.append_assoc, serializeItemNone]
    rw [List.append_assoc, List.append_assoc, hdmod, hlmod, u32le_append, u32le_append,
      List.length_cons, readItemsNone_cons8, u32val_u32le d hd,
      u32val_u32le ps.length (Nat.lt_trans hpslen' (by omega))]
    rw [int32LoopCount, if_pos hpslen']
    dsimp only
    rw [readPositionsNone_encode ps hps']
    dsimp only
    rw [ih hbt]

/-- C3 helper: full round trip of the NONE codec. -/
theorem deserializeNone_serializeNone (L : PList) (hb : BoundedPList L) :
    deserializeNone (serializeNone L) = L := by
  have hlen := hb.1
  have hlmod : L.length % 4294967296 = L.length := Nat.mod_eq_of_lt (by omega)
  rw [serializeNone, hlmod, u32le_append, deserializeNone,
    u32val_u32le L.length (by omega), int32LoopCount, if_pos hlen]
  have := readItemsNone_encode L hb []
  rwa [List.append_nil] at this

/-! ### Round trip of the GOLOMB codec -/

theorem readUnary_unaryBits (q : Nat) (rest : List Bool) :
    readUnary (unaryBits q ++ rest) = some (q, rest) := by
  induction q with
  | zero => rfl
  | succ n ih =>
    have h1 : unaryBits (n + 1) ++ rest = true :: (unaryBits n ++ rest) := by
      simp [unaryBits, List.replicate_succ]
    rw [h1]
    simp only [readUnary]
    rw [ih]

theorem readBitsAcc_natBits (b : Nat) :
    ∀ (v acc : Nat) (rest : List Bool),
      readBitsAcc acc b (natBits v b ++ rest) = some (acc * 2 ^ b + v % 2 ^ b, rest) := by
  induction b with
  | zero =>
    intro v acc rest
    simp [natBits, readBitsAcc, Nat.mod_one]
  | succ n ih =>
    intro v acc rest
    simp only [natBits, List.cons_append, readBitsAcc, List.append_eq]
    rw [ih v (2 * acc + if v.testBit n then 1 else 0) rest]
    have hbit : (if v.testBit n then 1 else 0) = v / 2 ^ n % 2 := by
      rw [Nat.testBit_to_div_mod]
      rcases Nat.mod_two_eq_zero_or_one (v / 2 ^ n) with h | h <;> simp [h]
    have harith : (2 * acc + v / 2 ^ n % 2) * 2 ^ n + v % 2 ^ n =
        acc * 2 ^ (n + 1) + v % 2 ^ (n + 1) := by
      rw [pow_succ, Nat.mod_mul]
      ring
    rw [hbit, harith]

theorem natBits_succ (b : Nat) :
    ∀ v : Nat, natBits v (b + 1) = natBits (v / 2) b ++ [v.testBit 0] := by
  induction b with
  | zero => intro v; rfl
  | succ n ih =>
    intro v
    have h1 : natBits v (n + 2) = v.testBit (n + 1) :: natBits v (n + 1) := rfl
    have h2 : natBits (v / 2) (n + 1) = (v / 2).testBit n :: natBits (v / 2) n := rfl
    rw [h1, ih v, h2, List.cons_append]
    have hb : (v / 2).testBit n = v.testBit (n + 1) := (Nat.testBit_succ v n).symm
    rw [hb]

theorem golombDecode_golombEncode (M x : Nat) (rest : List Bool)
    (hbpos : 0 < golombB M) (hM0 : 0 < M)
    (h1 : 2 ^ (golombB M - 1) < M) (h2 : M ≤ 2 ^ golombB M)
    (hx : x < 4294967296) :
    golombDecode M (golombEncode x M ++ rest) = some (x, rest) := by
  obtain ⟨c, hc⟩ : ∃ c, golombB M = c + 1 :=
    ⟨golombB M - 1, (Nat.succ_pred_eq_of_pos hbpos).symm⟩
  rw [hc] at h1 h2
  rw [Nat.add_sub_cancel] at h1
  have hxr : x % M < M := Nat.mod_lt x hM0
  have hpow : 2 ^ (c + 1) = 2 * 2 ^ c := by rw [pow_succ]; ring
  simp only [golombEncode, golombDecode, hc, Nat.add_sub_cancel, List.append_assoc]
  by_cases hr : x % M < 2 ^ (c + 1) - M
  · rw [if_pos hr, readUnary_unaryBits]
    dsimp only
    rw [readBitsAcc_natBits c (x % M) 0 rest]
    dsimp only
    simp only [Nat.zero_mul, Nat.zero_add]
    have hxc : x % M < 2 ^ c := by omega
    rw [Nat.mod_eq_of_lt hxc, if_pos hr]
    have hqr : x / M * M + x % M = x := by
      rw [Nat.mul_comm]
      exact Nat.div_add_mod x M
    rw [hqr, Nat.mod_eq_of_lt hx]
  · rw [if_neg hr, readUnary_unaryBits]
    dsimp only
    have hsplit := natBits_succ c (x % M + (2 ^ (c + 1) - M))
    rw [hsplit, List.append_assoc, readBitsAcc_natBits c ((x % M + (2 ^ (c + 1) - M)) / 2) 0]
    dsimp only
    simp only [Nat.zero_mul, Nat.zero_add]
    have hvlt : x % M + (2 ^ (c + 1) - M) < 2 ^ (c + 1) := by omega
    have hhalf : (x % M + (2 ^ (c + 1) - M)) / 2 < 2 ^ c := by omega
    rw [Nat.mod_eq_of_lt hhalf]
    rw [if_neg (by omega : ¬ (x % M + (2 ^ (c + 1) - M)) / 2 < 2 ^ (c + 1) - M)]
    simp only [List.singleton_append, readBitsAcc, Nat.mul_zero, Nat.zero_add]
    have hbit0 : (if (x % M + (2 ^ (c + 1) - M)).testBit 0 then 1 else 0) =
        (x % M + (2 ^ (c + 1) - M)) % 2 := by
      rw [Nat.testBit_to_div_mod, pow_zero, Nat.div_one]
      rcases Nat.mod_two_eq_zero_or_one (x % M + (2 ^ (c + 1) - M)) with h | h <;> simp [h]
    rw [hbit0]
    have hval : x / M * M +
        (2 * ((x % M + (2 ^ (c + 1) - M)) / 2) +
          (x % M + (2 ^ (c + 1) - M)) % 2 - (2 ^ (c + 1) - M)) = x := by
      have hqr : x / M * M + x % M = x := by
        rw [Nat.mul_comm]
        exact Nat.div_add_mod x M
      omega
    rw [hval, Nat.mod_eq_of_lt hx]
    rfl

theorem sub32_lt (a b : Nat) : sub32 a b < 4294967296 := by
  rw [sub32]
  omega

theorem add32_sub32 (a b : Nat) (ha : a < 4294967296) (hb : b < 4294967296) :
    add32 b (sub32 a b) = a := by
  rw [add32, sub32]
  omega

theorem decodePositionsG_encode (ps : List Nat) :
    ∀ (prev : Nat) (rest : List Bool),
      (∀ p ∈ ps, p < 4294967296) → prev < 4294967296 →
      decodePositionsG ps.length prev (encodePositionsG prev ps ++ rest) = some (ps, rest) := by
  induction ps with
  | nil => intro prev rest _ _; rfl
  | cons p t ih =>
    intro prev rest h hprev
    have hp : p < 4294967296 := h p (List.mem_cons_self p t)
    simp only [encodePositionsG, List.length_cons, List.append_assoc, decodePositionsG]
    rw [golombDecode_golombEncode 16 (sub32 p prev) _ (by decide) (by decide) (by decide)
      (by decide) (sub32_lt p prev)]
    dsimp only
    rw [add32_sub32 p prev hp hprev]
    rw [ih p _ (fun q hq => h q (List.mem_cons_of_mem _ hq)) hp]

theorem encodeItemG_ne_nil (prev : Nat) (it : PItem) (rest : List Bool) :
    ((encodeItemG prev it ++ rest).isEmpty) = false := by
  simp [encodeItemG, golombEncode, unaryBits, List.isEmpty_iff]

theorem decodeItemsG_encode (L : PList) :
    ∀ (prev : Nat) (rest : List Bool),
      (∀ it ∈ L, it.1 < 4294967296 ∧ it.2.length < 2147483648 ∧ ∀ p ∈ it.2, p < 4294967296) →
      prev < 4294967296 →
      decodeItemsG L.length prev (encodeItemsG prev L ++ rest) = L := by
  induction L with
  | nil => intro prev rest _ _; rfl
  | cons it t ih =>
    obtain ⟨d, ps⟩ := it
    intro prev rest h hprev
    obtain ⟨hd, hpslen, hps⟩ := h (d, ps) (List.mem_cons_self _ _)
    have hd' : d < 4294967296 := hd
    have hpslen' : ps.length < 2147483648 := hpslen
    have hps' : ∀ p ∈ ps, p < 4294967296 := hps
    have hlmod : ps.length % 4294967296 = ps.length := Nat.mod_eq_of_lt (by omega)
    simp only [encodeItemsG, List.length_cons, decodeItemsG]
    rw [if_neg (by rw [List.append_assoc, encodeItemG_ne_nil]; exact Bool.false_ne_true)]
    simp only [encodeItemG, List.append_assoc]
    rw [golombDecode_golombEncode 128 (sub32 d prev) _ (by decide) (by decide) (by decide)
      (by decide) (sub32_lt d prev)]
    dsimp only
    rw [golombDecode_golombEncode 8 (ps.length % 4294967296) _ (by decide) (by decide)
      (by decide) (by decide) (Nat.mod_lt _ (by decide))]
    dsimp only
    rw [hlmod, int32LoopCount, if_pos hpslen']
    rw [decodePositionsG_encode ps 0 _ hps' (by decide)]
    dsimp only
    rw [add32_sub32 d prev hd' hprev]
    rw [ih d _ (fun it' hit' => h it' (List.mem_cons_of_mem _ hit')) hd']

theorem packBits_cons8 (b0 b1 b2 b3 b4 b5 b6 b7 : Bool) (rest : List Bool) :
    packBits (b0 :: b1 :: b2 :: b3 :: b4 :: b5 :: b6 :: b7 :: rest) =
      byteValBits [b0, b1, b2, b3, b4, b5, b6, b7] :: packBits rest :=
  rfl

theorem bitsOfByte_byteValBits (b0 b1 b2 b3 b4 b5 b6 b7 : Bool) :
    bitsOfByte (byteValBits [b0, b1, b2, b3, b4, b5, b6, b7]) =
      [b0, b1, b2, b3, b4, b5, b6, b7] := by
  cases b0 <;> cases b1 <;> cases b2 <;> cases b3 <;>
    cases b4 <;> cases b5 <;> cases b6 <;> cases b7 <;> rfl

theorem bitsOfBytes_packBits :
    ∀ (n : Nat) (l : List Bool), l.length = n → n % 8 = 0 → bitsOfBytes (packBits l) = l := by
  intro n
  induction n using Nat.strong_induction_on with
  | _ n ihn =>
    intro l hlen hmod
    match l with
    | [] => rfl
    | [_] => subst hlen; simp at hmod
    | [_, _] => subst hlen; simp at hmod
    | [_, _, _] => subst hlen; simp at hmod
    | [_, _, _, _] => subst hlen; simp at hmod
    | [_, _, _, _, _] => subst hlen; simp at hmod
    | [_, _, _, _, _, _] => subst hlen; simp at hmod
    | [_, _, _, _, _, _, _] => subst hlen; simp at hmod
    | b0 :: b1 :: b2 :: b3 :: b4 :: b5 :: b6 :: b7 :: rest =>
      rw [packBits_cons8]
      have hb : bitsOfBytes (byteValBits [b0, b1, b2, b3, b4, b5, b6, b7] :: packBits rest) =
          bitsOfByte (byteValBits [b0, b1, b2, b3, b4, b5, b6, b7]) ++
            bitsOfBytes (packBits rest) := rfl
      rw [hb, bitsOfByte_byteValBits]
      have hlr : rest.length = n - 8 := by
        simp only [List.length_cons] at hlen
        omega
      have hlt : n - 8 < n := by
        simp only [List.length_cons] at hlen
        omega
      have hm : (n - 8) % 8 = 0 := by
        simp only [List.length_cons] at hlen
        omega
      rw [ihn (n - 8) hlt rest hlr hm]
      rfl

theorem padBits_length_mod (bits : List Bool) : (padBits bits).length % 8 = 0 := by
  simp only [padBits, List.length_append, List.length_replicate]
  omega

theorem bitsOfBytes_bytesOfBits (bits : List Bool) :
    bitsOfBytes (bytesOfBits bits) = padBits bits :=
  bitsOfBytes_packBits (padBits bits).length (padBits bits) rfl (padBits_length_mod bits)

/-- C3 helper: full round trip of the GOLOMB codec. -/
theorem deserializeGolomb_serializeGolomb (L : PList) (hb : BoundedPList L) :
    deserializeGolomb (serializeGolomb L) = L := by
  have hlen := hb.1
  have hlmod : L.length % 4294967296 = L.length := Nat.mod_eq_of_lt (by omega)
  rw [serializeGolomb, hlmod, u32le_append, deserializeGolomb,
    u32val_u32le L.length (by omega), int32LoopCount, if_pos hlen,
    bitsOfBytes_bytesOfBits, padBits]
  exact decodeItemsG_encode L 0 _ (fun it hit => hb.2 it hit) (by decide)

/-- The round trip of PostingsList serialization for both methods. -/
theorem deserialize_serialize (m : CompressMethod) (L : PList) (hb : BoundedPList L) :
    deserialize m (serialize m L) = L := by
  cases m with
  | NONE => exact deserializeNone_serializeNone L hb
  | GOLOMB => exact deserializeGolomb_serializeGolomb L hb

/-! ### Flush semantics -/

theorem chainLeBool_iff (l : List Nat) :
    chainLeBool l = true ↔ List.Chain' (· ≤ ·) l := by
  induction l with
  | nil => simp [chainLeBool]
  | cons a t ih =>
    cases t with
    | nil => simp [chainLeBool]
    | cons b t2 =>
      rw [chainLeBool, List.chain'_cons, Bool.and_eq_true, decide_eq_true_iff, ih]

instance (l : List Nat) : Decidable (List.Chain' (· ≤ ·) l) :=
  decidable_of_iff _ (chainLeBool_iff l)

instance (l : List Nat) : Decidable (List.Chain' (· < ·) l) :=
  decidable_of_iff _ (chainLtBool_iff l)

theorem getPostingsRow_updateOther (rows : List TokenRow) (tid tid' dc : Nat)
    (bytes : List Nat) (hne : tid ≠ tid') :
    getPostingsRow (updatePostingsRow rows tid' dc bytes) tid = getPostingsRow rows tid := by
  induction rows with
  | nil => rfl
  | cons r t ih =>
    by_cases hr : r.id = tid'
    · have h1 : (if r.id == tid' then
          { r with docsCount := dc, postings := bytes } else r) =
          { r with docsCount := dc, postings := bytes } := by simp [hr]
      have h2 : ({ r with docsCount := dc, postings := bytes } : TokenRow).id ≠ tid := by
        simpa using hr ▸ fun hc => hne hc.symm
      rw [updatePostingsRow, List.map_cons, h1, getPostingsRow,
        List.find?_cons_of_neg _ (by simpa using h2), getPostingsRow,
        List.find?_cons_of_neg _ (by simp [hr]; exact fun hc => hne hc.symm)]
      exact ih
    · have h1 : (if r.id == tid' then
          { r with docsCount := dc, postings := bytes } else r) = r := by simp [hr]
      rw [updatePostingsRow, List.map_cons, h1]
      by_cases h2 : r.id = tid
      · rw [getPostingsRow, List.find?_cons_of_pos _ (by simpa using h2), getPostingsRow,
          List.find?_cons_of_pos _ (by simpa using h2)]
      · rw [getPostingsRow, List.find?_cons_of_neg _ (by simpa using h2), getPostingsRow,
          List.find?_cons_of_neg _ (by simpa using h2)]
        exact ih

theorem flushMergedList_congr (m : CompressMethod) (rows rows' : List TokenRow)
    (tid : Nat) (pl : PList)
    (h : getPostingsRow rows' tid = getPostingsRow rows tid) :
    flushMergedList m rows' tid pl = flushMergedList m rows tid pl := by
  rw [flushMergedList, flushMergedList, h]

theorem flushLoop_none_of_fault (m : CompressMethod) (f : Nat → Bool) :
    ∀ (buffer : List (Nat × PList)) (k0 : Nat) (rows : List TokenRow),
      (∃ k, k < buffer.length ∧ f (k0 + k) = true) →
      flushLoop m f k0 rows buffer = none := by
  intro buffer
  induction buffer with
  | nil =>
    intro k0 rows h
    obtain ⟨k, hk, _⟩ := h
    exact absurd hk (by simp)
  | cons e t ih =>
    intro k0 rows h
    obtain ⟨tid, pl⟩ := e
    by_cases h0 : f k0 = true
    · rw [flushLoop, if_pos h0]
    · rw [flushLoop, if_neg h0]
      apply ih
      obtain ⟨k, hk, hf⟩ := h
      cases k with
      | zero => exact absurd (by simpa using hf) h0
      | succ j =>
        refine ⟨j, by simpa using hk, ?_⟩
        have : k0 + (j + 1) = k0 + 1 + j := by omega
        rwa [this] at hf

theorem flushLoop_some_of_no_fault (m : CompressMethod) (f : Nat → Bool)
    (hf : ∀ k, f k = false) :
    ∀ (buffer : List (Nat × PList)) (k0 : Nat) (rows : List TokenRow),
      ((buffer.map Prod.fst).Nodup) →
      (∀ r ∈ rows, r.docsCount = (deserialize m r.postings).length) →
      (∀ e ∈ buffer, BoundedPList (flushMergedList m rows e.1 e.2)) →
      ∃ rows2, flushLoop m f k0 rows buffer = some rows2 ∧
        ∀ r ∈ rows2, r.docsCount = (deserialize m r.postings).length := by
  intro buffer
  induction buffer with
  | nil =>
    intro k0 rows _ hrows _
    exact ⟨rows, rfl, hrows⟩
  | cons e t ih =>
    intro k0 rows hnd hrows hbound
    obtain ⟨tid, pl⟩ := e
    have hb0 : BoundedPList (flushMergedList m rows tid pl) :=
      hbound (tid, pl) (List.mem_cons_self _ _)
    have hrt : deserialize m (serialize m (flushMergedList m rows tid pl)) =
        flushMergedList m rows tid pl :=
      deserialize_serialize m _ hb0
    have hrows1 : ∀ r ∈ updatePostingsRow rows tid (flushMergedList m rows tid pl).length
        (serialize m (flushMergedList m rows tid pl)),
        r.docsCount = (deserialize m r.postings).length := by
      intro r hr
      rw [updatePostingsRow, List.mem_map] at hr
      obtain ⟨r0, hr0, rfl⟩ := hr
      by_cases hid : (r0.id == tid) = true
      · rw [if_pos hid]
        show (flushMergedList m rows tid pl).length = _
        rw [hrt]
      · rw [if_neg hid]
        exact hrows r0 hr0
    have hnd' : (t.map Prod.fst).Nodup := by
      rw [List.map_cons, List.nodup_cons] at hnd
      exact hnd.2
    have hmem : tid ∉ t.map Prod.fst := by
      rw [List.map_cons, List.nodup_cons] at hnd
      exact hnd.1
    have hbound1 : ∀ e ∈ t, BoundedPList
        (flushMergedList m (updatePostingsRow rows tid (flushMergedList m rows tid pl).length
          (serialize m (flushMergedList m rows tid pl))) e.1 e.2) := by
      intro e he
      have hne : e.1 ≠ tid := by
        intro hc
        exact hmem (hc ▸ List.mem_map_of_mem Prod.fst he)
      rw [flushMergedList_congr m rows _ e.1 e.2
        (getPostingsRow_updateOther rows e.1 tid _ _ hne)]
      exact hbound e (List.mem_cons_of_mem _ he)
    obtain ⟨rows2, heq, hcons⟩ := ih (k0 + 1) _ hnd' hrows1 hbound1
    refine ⟨rows2, ?_, hcons⟩
    rw [flushLoop, if_neg (by rw [hf k0]; exact Bool.false_ne_true), heq]

/-! ### Phrase filter semantics -/

theorem twoPointerLoop_eq :
    ∀ (fuel : Nat) (cur nxt : List Nat),
      cur.length + nxt.length ≤ fuel →
      List.Chain' (· < ·) cur → List.Chain' (· < ·) nxt →
      twoPointerLoop fuel cur nxt =
        (cur.filter (fun c => decide ((c + 1) ∈ nxt))).map (· + 1) := by
  intro fuel
  induction fuel with
  | zero =>
    intro cur nxt hle _ _
    have hc : cur = [] := List.eq_nil_of_length_eq_zero (by omega)
    subst hc
    simp [twoPointerLoop]
  | succ n ih =>
    intro cur nxt hle hc hn
    match cur, nxt with
    | [], _ => simp [twoPointerLoop]
    | c :: cs, [] => simp [twoPointerLoop]
    | c :: cs, x :: xs =>
      have hcs : List.Chain' (· < ·) cs := hc.tail
      have hxs : List.Chain' (· < ·) xs := hn.tail
      have hcall : ∀ y ∈ cs, c < y := fun y hy =>
        List.rel_of_pairwise_cons ((List.chain'_iff_pairwise).mp hc) hy
      have hxall : ∀ y ∈ xs, x < y := fun y hy =>
        List.rel_of_pairwise_cons ((List.chain'_iff_pairwise).mp hn) hy
      simp only [twoPointerLoop]
      by_cases h1 : x = c + 1
      · rw [if_pos h1, ih cs xs (by simp only [List.length_cons] at hle; omega) hcs hxs]
        rw [List.filter_cons, if_pos (by simp [h1])]
        rw [List.map_cons]
        congr 1
        congr 1
        apply List.filter_congr
        intro y hy
        have hygt : c < y := hcall y hy
        simp only [decide_eq_decide, List.mem_cons]
        constructor
        · intro h; exact Or.inr h
        · rintro (h | h)
          · exfalso; omega
          · exact h
      · rw [if_neg h1]
        by_cases h2 : x < c + 1
        · rw [if_pos h2, ih (c :: cs) xs (by simp only [List.length_cons] at hle ⊢; omega) hc hxs]
          congr 1
          apply List.filter_congr
          intro y hy
          have hyge : c ≤ y := by
            rcases List.mem_cons.mp hy with h | h
            · omega
            · exact Nat.le_of_lt (hcall y h)
          simp only [decide_eq_decide, List.mem_cons]
          constructor
          · intro h; exact Or.inr h
          · rintro (h | h)
            · exfalso; omega
            · exact h
        · rw [if_neg h2, ih cs (x :: xs) (by simp only [List.length_cons] at hle ⊢; omega) hcs hn]
          rw [List.filter_cons, if_neg ?hf]
          case hf =>
            simp only [decide_eq_true_iff, List.mem_cons]
            rintro (h | h)
            · omega
            · have := hxall _ h
              omega

theorem twoPointerAdvance_eq (cur nxt : List Nat)
    (hc : List.Chain' (· < ·) cur) (hn : List.Chain' (· < ·) nxt) :
    twoPointerAdvance cur nxt =
      (cur.filter (fun c => decide ((c + 1) ∈ nxt))).map (· + 1) :=
  twoPointerLoop_eq (cur.length + nxt.length) cur nxt (Nat.le_refl _) hc hn

theorem twoPointerAdvance_sorted (cur nxt : List Nat)
    (hc : List.Chain' (· < ·) cur) (hn : List.Chain' (· < ·) nxt) :
    List.Chain' (· < ·) (twoPointerAdvance cur nxt) := by
  rw [twoPointerAdvance_eq cur nxt hc hn, List.chain'_iff_pairwise, List.pairwise_map]
  rw [List.chain'_iff_pairwise] at hc
  exact (hc.filter _).imp (fun h => by omega)

theorem phraseChainOk_iff (rest : List (Option (List Nat))) :
    ∀ cur : List Nat, List.Chain' (· < ·) cur →
      (∀ o ∈ rest, ∀ l, o = some l → List.Chain' (· < ·) l) →
      (rest = [] → cur ≠ []) →
      (phraseChainOk cur rest = true ↔
        ∃ c ∈ cur, ∀ j, j < rest.length → (c + (j + 1)) ∈ optPos (rest.getD j none)) := by
  induction rest with
  | nil =>
    intro cur _ _ hne
    simp only [phraseChainOk, List.length_nil]
    constructor
    · intro _
      obtain ⟨c, hcm⟩ := List.exists_mem_of_ne_nil cur (hne rfl)
      exact ⟨c, hcm, fun j hj => absurd hj (by omega)⟩
    · intro _; trivial
  | cons o os ih =>
    intro cur hcur hsort hne
    cases o with
    | none =>
      simp only [phraseChainOk]
      constructor
      · intro h; exact absurd h (by simp)
      · rintro ⟨c, hcm, hall⟩
        have h0 := hall 0 (by simp)
        simp [List.getD_cons_zero, optPos] at h0
    | some nxt =>
      have hnxt : List.Chain' (· < ·) nxt :=
        hsort (some nxt) (List.mem_cons_self _ _) nxt rfl
      have hadv := twoPointerAdvance_eq cur nxt hcur hnxt
      simp only [phraseChainOk]
      by_cases he : ((twoPointerAdvance cur nxt).isEmpty) = true
      · rw [if_pos he]
        have hadvnil : twoPointerAdvance cur nxt = [] := by
          cases hx : twoPointerAdvance cur nxt with
          | nil => rfl
          | cons a t => rw [hx] at he; exact absurd he (by simp)
        constructor
        · intro h; exact absurd h (by simp)
        · rintro ⟨c, hcm, hall⟩
          have h0 := hall 0 (by simp)
          rw [List.getD_cons_zero] at h0
          have hcf : c ∈ cur.filter (fun c => decide ((c + 1) ∈ nxt)) :=
            List.mem_filter.mpr ⟨hcm, by simpa [optPos] using h0⟩
          have hmemadv : (c + 1) ∈ twoPointerAdvance cur nxt := by
            rw [hadv]
            exact List.mem_map_of_mem _ hcf
          rw [hadvnil] at hmemadv
          exact absurd hmemadv (List.not_mem_nil _)
      · rw [if_neg he]
        have hadvs : List.Chain' (· < ·) (twoPointerAdvance cur nxt) :=
          twoPointerAdvance_sorted cur nxt hcur hnxt
        have hsort' : ∀ o ∈ os, ∀ l, o = some l → List.Chain' (· < ·) l :=
          fun o ho => hsort o (List.mem_cons_of_mem _ ho)
        have hne' : os = [] → twoPointerAdvance cur nxt ≠ [] := by
          intro _ hc2
          rw [hc2] at he
          exact he rfl
        rw [ih (twoPointerAdvance cur nxt) hadvs hsort' hne']
        constructor
        · rintro ⟨c', hc'm, hall⟩
          rw [hadv] at hc'm
          obtain ⟨c, hcf, rfl⟩ := List.mem_map.mp hc'm
          obtain ⟨hcm, hmem⟩ := List.mem_filter.mp hcf
          refine ⟨c, hcm, ?_⟩
          intro j hj
          cases j with
          | zero =>
            rw [List.getD_cons_zero]
            simpa [optPos] using hmem
          | succ i =>
            have hi := hall i (by simp only [List.length_cons] at hj; omega)
            have harr : c + (i + 1 + 1) = c + 1 + (i + 1) := by omega
            rw [List.getD_cons_succ, harr]
            exact hi
        · rintro ⟨c, hcm, hall⟩
          have h0 := hall 0 (by simp)
          rw [List.getD_cons_zero] at h0
          refine ⟨c + 1, ?_, ?_⟩
          · rw [hadv]
            exact List.mem_map_of_mem _
              (List.mem_filter.mpr ⟨hcm, by simpa [optPos] using h0⟩)
          · intro j hj
            have hji := hall (j + 1) (by simp only [List.length_cons]; omega)
            have harr : c + (j + 1 + 1) = c + 1 + (j + 1) := by omega
            rw [List.getD_cons_succ, harr] at hji
            exact hji

theorem lookupDoc_sorted_positions {mp : PList} {d : Nat} {ps : List Nat}
    (hsorted : ∀ e ∈ mp, List.Chain' (· < ·) e.2)
    (h : lookupDoc mp d = some ps) : List.Chain' (· < ·) ps := by
  rw [lookupDoc] at h
  cases hf : mp.find? (fun it => it.1 == d) with
  | none => rw [hf] at h; exact absurd h (by simp)
  | some e =>
    rw [hf] at h
    have hmem : e ∈ mp := List.mem_of_find?_eq_some hf
    have : e.2 = ps := by simpa using h
    rw [← this]
    exact hsorted e hmem

theorem phraseDocOk_iff (posMaps : List PList) (d : Nat)
    (hlen : 1 < posMaps.length)
    (hsorted : ∀ mp ∈ posMaps, ∀ e ∈ mp, List.Chain' (· < ·) e.2) :
    (phraseDocOk (posMaps.map (fun mp => lookupDoc mp d)) = true ↔
      ∃ p0 ∈ posOf posMaps 0 d,
        ∀ i, 1 ≤ i → i < posMaps.length → (p0 + i) ∈ posOf posMaps i d) := by
  cases posMaps with
  | nil => simp at hlen
  | cons mp0 mps =>
    have hp0 : posOf (mp0 :: mps) 0 d = optPos (lookupDoc mp0 d) := by
      rw [posOf, List.getD_cons_zero]
      cases lookupDoc mp0 d <;> rfl
    have hgd : ∀ j, j < mps.length →
        optPos ((mps.map (fun mp => lookupDoc mp d)).getD j none) =
          posOf (mp0 :: mps) (j + 1) d := by
      intro j hj
      rw [posOf, List.getD_cons_succ]
      rw [List.getD_eq_getElem?_getD, List.getElem?_map, List.getElem?_eq_getElem hj]
      rw [List.getD_eq_getElem?_getD, List.getElem?_eq_getElem hj]
      simp only [Option.map_some', Option.getD_some]
      cases lookupDoc mps[j] d <;> rfl
    rw [List.map_cons]
    cases hl0 : lookupDoc mp0 d with
    | none =>
      simp only [phraseDocOk]
      constructor
      · intro h; exact absurd h (by simp)
      · rintro ⟨p0, hp0m, _⟩
        rw [hp0, hl0] at hp0m
        exact absurd hp0m (List.not_mem_nil _)
    | some ps =>
      simp only [phraseDocOk]
      have hps : List.Chain' (· < ·) ps :=
        lookupDoc_sorted_positions (hsorted mp0 (List.mem_cons_self _ _)) hl0
      have hsort' : ∀ o ∈ mps.map (fun mp => lookupDoc mp d), ∀ l, o = some l →
          List.Chain' (· < ·) l := by
        intro o ho l hol
        obtain ⟨mp, hmp, rfl⟩ := List.mem_map.mp ho
        exact lookupDoc_sorted_positions (hsorted mp (List.mem_cons_of_mem _ hmp)) hol
      have hne : mps.map (fun mp => lookupDoc mp d) = [] → ps ≠ [] := by
        intro hmap
        rw [List.map_eq_nil] at hmap
        subst hmap
        simp at hlen
      rw [phraseChainOk_iff (mps.map (fun mp => lookupDoc mp d)) ps hps hsort' hne]
      rw [hp0, hl0]
      constructor
      · rintro ⟨c, hcm, hall⟩
        refine ⟨c, hcm, ?_⟩
        intro i h1 h2
        obtain ⟨j, rfl⟩ : ∃ j, i = j + 1 := ⟨i - 1, by omega⟩
        have hj : j < mps.length := by
          simp only [List.length_cons] at h2; omega
        rw [← hgd j hj]
        exact hall j (by simpa using hj)
      · rintro ⟨c, hcm, hall⟩
        refine ⟨c, hcm, ?_⟩
        intro j hj
        rw [List.length_map] at hj
        rw [hgd j hj]
        exact hall (j + 1) (by omega) (by simp only [List.length_cons]; omega)

end Wiser

/-! ## Claims C1 and C2 -/

/-- C1: the claim states that on both the ingest side and the query side a
code point is IGNORED iff it is ASCII whitespace, ASCII punctuation other
than the period, or one of the sixteen listed fullwidth code points. The
query-side classifier Utils::isIgnoredChar agrees with that description at
every code point, but the ingest-side classifier of tokenizer.cpp ignores
the period 0x2E, which the claim (and the rationale documented in
utils.cpp) says is a token character. -/
theorem c1_period_classification :
    (∀ c : Nat, Wiser.utilsIsIgnoredChar c = Wiser.specIgnoredChar c) ∧
    Wiser.tokenizerIsIgnoredChar 46 = true ∧
    Wiser.specIgnoredChar 46 = false := by
  refine ⟨?_, rfl, rfl⟩
  intro c
  by_cases h : c ≤ 127
  · interval_cases c <;> rfl
  · have h32 : (c == 32) = false := by simp; omega
    have h46 : (c == 46) = false := by simp; omega
    have h13 : (c ≤ 13) = False := by simp; omega
    have h47 : (c ≤ 47) = False := by simp; omega
    have h64 : (c ≤ 64) = False := by simp; omega
    have h96 : (c ≤ 96) = False := by simp; omega
    have h126 : (c ≤ 126) = False := by simp; omega
    simp only [Wiser.utilsIsIgnoredChar, Wiser.specIgnoredChar, Wiser.isSpaceAscii,
      Wiser.isPunctAscii, h, if_false, h32, h13, h47, h64, h96, h126]
    simp

/-- C2: the claim states that ingest-side and query-side tokenization
produce identical token sequences for every input. On the UTF-8 input
"2.5" (bytes 50, 46, 53) with N = 2 the ingest side emits no tokens (its
classifier ignores the period, leaving two runs of length 1), while the
query side emits the two tokens "2." and ".5"; so the sequences differ. -/
theorem c2_tokenization_divergence :
    Wiser.ingestTokenTexts 2 (Wiser.utf8ToUtf32 [50, 46, 53]) = [] ∧
    Wiser.queryTokenTexts 2 (Wiser.utf8ToUtf32 [50, 46, 53]) = [[50, 46], [46, 53]] ∧
    Wiser.ingestTokenTexts 2 (Wiser.utf8ToUtf32 [50, 46, 53]) ≠
      Wiser.queryTokenTexts 2 (Wiser.utf8ToUtf32 [50, 46, 53]) := by
  refine ⟨by decide, by decide, by decide⟩


/-- C4: the claim states that after A.merge(B) every item of A has its
positions sorted ascending with no duplicates (the sorted union for shared
doc ids). Counterexample: merging B = [(doc 1, [3])] into A = [(doc 1, [5])]
yields positions [5, 3] for doc 1, which is not sorted ascending, because
PostingsList::merge appends the positions without sorting or
deduplication. -/
theorem c4_counterexample :
    Wiser.mergeLists [(1, [5])] [(1, [3])] = [(1, [5, 3])] ∧
    ¬ List.Chain' (· ≤ ·) [5, 3] :=
  ⟨rfl, fun h => absurd (List.chain'_cons.mp h).1 (by omega)⟩

/-- C4 (amended): after A.merge(B), A's items remain sorted strictly
ascending by doc_id, and for a doc_id present in both lists the resulting
position vector is A's positions followed by B's positions — a plain
concatenation, not sorted and not deduplicated. -/
theorem c4_merge_concatenates (A B : Wiser.PList)
    (hA : Wiser.docIdsSorted A) (hB : Wiser.docIdsSorted B) :
    Wiser.docIdsSorted (Wiser.mergeLists A B) ∧
    ∀ d, Wiser.lookupDoc (Wiser.mergeLists A B) d =
      match Wiser.lookupDoc A d, Wiser.lookupDoc B d with
      | some pa, some pb => some (pa ++ pb)
      | some pa, none => some pa
      | none, some pb => some pb
      | none, none => none :=
  ⟨Wiser.mergeLists_sorted B hA, Wiser.mergeLists_lookup B A hA hB⟩

/-- Witness for the amended C4 theorem at a concrete input. -/
theorem c4_merge_concatenates_witness :
    Wiser.docIdsSorted (Wiser.mergeLists [(1, [5])] [(1, [3])]) ∧
    Wiser.lookupDoc (Wiser.mergeLists [(1, [5])] [(1, [3])]) 1 = some [5, 3] := by
  have h := c4_merge_concatenates [(1, [5])] [(1, [3])] (by decide) (by decide)
  refine ⟨h.1, ?_⟩
  rw [h.2 1]
  rfl

/-- C10: after any sequence of InvertedIndex::addPosting and
PostingsList::merge operations starting from the empty buffer, every
PostingsList in the buffer has its items sorted strictly ascending by
doc_id, hence with at most one item per doc_id. -/
theorem c10_buffer_docids_sorted (ops : List Wiser.BufferOp) :
    ∀ e ∈ Wiser.applyBufferOps ops, Wiser.docIdsSorted e.2 :=
  Wiser.applyBufferOps_inv ops

/-- Witness for C10 at a concrete operation sequence. -/
theorem c10_buffer_docids_sorted_witness :
    Wiser.docIdsSorted [(1, [0]), (2, [0]), (3, [1])] :=
  c10_buffer_docids_sorted
    [.addPosting 1 2 0, .addPosting 1 1 0, .mergePostings 1 [(3, [1])]]
    (1, [(1, [0]), (2, [0]), (3, [1])]) (by decide)


/-- C3: for every PostingsList whose items are sorted strictly ascending by
doc_id with each item's positions sorted ascending (and whose counts and
values fit the 32-bit machine types), deserializing the serialization under
either method NONE or GOLOMB reconstructs a list equal to L: the same
doc_ids in the same order, the same positions per doc, and the same
documents_count. -/
theorem c3_codec_roundtrip (L : Wiser.PList) (m : Wiser.CompressMethod)
    (hsorted : Wiser.docIdsSorted L)
    (hpos : ∀ it ∈ L, List.Chain' (· ≤ ·) it.2)
    (hb : Wiser.BoundedPList L) :
    Wiser.deserialize m (Wiser.serialize m L) = L ∧
    (Wiser.deserialize m (Wiser.serialize m L)).length = L.length := by
  have h := Wiser.deserialize_serialize m L hb
  exact ⟨h, by rw [h]⟩

set_option maxRecDepth 40000 in
/-- Witness for C3 at the concrete list of spec scenario S4, under both
methods. -/
theorem c3_codec_roundtrip_witness :
    Wiser.deserialize .NONE
        (Wiser.serialize .NONE [(1, [0, 3, 7]), (5, [2]), (9, [0, 1, 2, 3])]) =
      [(1, [0, 3, 7]), (5, [2]), (9, [0, 1, 2, 3])] ∧
    Wiser.deserialize .GOLOMB
        (Wiser.serialize .GOLOMB [(1, [0, 3, 7]), (5, [2]), (9, [0, 1, 2, 3])]) =
      [(1, [0, 3, 7]), (5, [2]), (9, [0, 1, 2, 3])] :=
  ⟨(c3_codec_roundtrip [(1, [0, 3, 7]), (5, [2]), (9, [0, 1, 2, 3])] .NONE
      (by decide) (by decide) (by decide)).1,
   (c3_codec_roundtrip [(1, [0, 3, 7]), (5, [2]), (9, [0, 1, 2, 3])] .GOLOMB
      (by decide) (by decide) (by decide)).1⟩

/-- C5 counterexample: the claim states that the in-memory buffer is
unconditionally cleared on every failure path. When beginTransaction fails,
flushIndexBuffer returns before index_buffer_.clear(), so a non-empty
buffer survives the failed flush unchanged. -/
theorem c5_counterexample :
    (Wiser.flushIndexBufferModel .NONE ⟨true, fun _ => false, false⟩
        [⟨1, [97, 98], 0, []⟩] [(1, [(1, [0])])]).2 = [(1, [(1, [0])])] ∧
    ([(1, [(1, [0])])] : List (Nat × Wiser.PList)) ≠ [] :=
  ⟨rfl, by decide⟩

/-- C5 (amended): an empty buffer makes flushIndexBuffer a no-op with no
store operation; a failing beginTransaction returns early with the rows
unchanged and the buffer retained; once the transaction has begun, a
failing per-token updatePostings or a failing commit rolls the rows back
to their pre-flush state and the buffer is cleared, and the buffer is
cleared on every post-begin path, success included. -/
theorem c5_flush_error_semantics (m : Wiser.CompressMethod) (f : Wiser.FlushFaults)
    (rows : List Wiser.TokenRow) (buffer : List (Nat × Wiser.PList)) :
    (buffer = [] → Wiser.flushIndexBufferModel m f rows buffer = (rows, buffer)) ∧
    (f.beginFail = true → Wiser.flushIndexBufferModel m f rows buffer = (rows, buffer)) ∧
    (f.beginFail = false → buffer ≠ [] →
      ((∃ k, k < buffer.length ∧ f.updFail k = true) ∨ f.commitFail = true →
        Wiser.flushIndexBufferModel m f rows buffer = (rows, [])) ∧
      (Wiser.flushIndexBufferModel m f rows buffer).2 = []) := by
  refine ⟨?_, ?_, ?_⟩
  · intro h
    rw [Wiser.flushIndexBufferModel, if_pos (by simp [h])]
  · intro h
    by_cases hb : buffer.isEmpty
    · rw [Wiser.flushIndexBufferModel, if_pos hb]
    · rw [Wiser.flushIndexBufferModel, if_neg hb, if_pos h]
  · intro hb hne
    have hbe : buffer.isEmpty = false := by
      cases buffer with
      | nil => exact absurd rfl hne
      | cons e t => rfl
    constructor
    · rintro (⟨k, hk, hf⟩ | hc)
      · rw [Wiser.flushIndexBufferModel, if_neg (by rw [hbe]; exact Bool.false_ne_true),
          if_neg (by rw [hb]; exact Bool.false_ne_true),
          Wiser.flushLoop_none_of_fault m f.updFail buffer 0 rows ⟨k, hk, by simpa using hf⟩]
      · rw [Wiser.flushIndexBufferModel, if_neg (by rw [hbe]; exact Bool.false_ne_true),
          if_neg (by rw [hb]; exact Bool.false_ne_true)]
        cases hl : Wiser.flushLoop m f.updFail 0 rows buffer with
        | none => rfl
        | some rows2 =>
          dsimp only
          rw [if_pos hc]
    · rw [Wiser.flushIndexBufferModel, if_neg (by rw [hbe]; exact Bool.false_ne_true),
        if_neg (by rw [hb]; exact Bool.false_ne_true)]
      cases hl : Wiser.flushLoop m f.updFail 0 rows buffer with
      | none => rfl
      | some rows2 =>
        dsimp only
        by_cases hc : f.commitFail = true
        · rw [if_pos hc]
        · rw [if_neg hc]

/-- Witness for the amended C5 theorem: a commit failure on a concrete
non-empty buffer rolls back and clears the buffer. -/
theorem c5_flush_error_semantics_witness :
    Wiser.flushIndexBufferModel .NONE ⟨false, fun _ => false, true⟩
        [⟨1, [97, 98], 0, []⟩] [(1, [(1, [0])])] = ([⟨1, [97, 98], 0, []⟩], []) :=
  ((c5_flush_error_semantics .NONE ⟨false, fun _ => false, true⟩
      [⟨1, [97, 98], 0, []⟩] [(1, [(1, [0])])]).2.2 rfl (by decide)).1 (Or.inr rfl)

/-- C8: after a successful flush every persisted token row has docs_count
equal to the number of items obtained by deserializing its postings bytes
with the current compress method, provided the pre-flush rows satisfied the
invariant, the buffered token ids are distinct, and the merged lists fit
the machine widths; and the row freshly inserted for a new token (docs
count 0, empty postings) satisfies the same invariant. -/
theorem c8_docs_count_consistency (m : Wiser.CompressMethod) (f : Wiser.FlushFaults)
    (rows : List Wiser.TokenRow) (buffer : List (Nat × Wiser.PList))
    (hnb : f.beginFail = false) (hnu : ∀ k, f.updFail k = false) (hnc : f.commitFail = false)
    (hids : (buffer.map Prod.fst).Nodup)
    (hrows : ∀ r ∈ rows, r.docsCount = (Wiser.deserialize m r.postings).length)
    (hbound : ∀ e ∈ buffer, Wiser.BoundedPList (Wiser.flushMergedList m rows e.1 e.2)) :
    (∀ r ∈ (Wiser.flushIndexBufferModel m f rows buffer).1,
      r.docsCount = (Wiser.deserialize m r.postings).length) ∧
    ∀ tid text, (Wiser.freshTokenRow tid text).docsCount =
      (Wiser.deserialize m (Wiser.freshTokenRow tid text).postings).length := by
  constructor
  · by_cases hb : buffer.isEmpty
    · rw [Wiser.flushIndexBufferModel, if_pos hb]
      exact hrows
    · obtain ⟨rows2, heq, hcons⟩ :=
        Wiser.flushLoop_some_of_no_fault m f.updFail hnu buffer 0 rows hids hrows hbound
      rw [Wiser.flushIndexBufferModel, if_neg hb,
        if_neg (by rw [hnb]; exact Bool.false_ne_true), heq]
      dsimp only
      rw [if_neg (by rw [hnc]; exact Bool.false_ne_true)]
      exact hcons
  · intro tid text
    cases m <;> rfl

/-- Witness for C8: a concrete flush of one buffered token over a store
already holding a serialized list for that token. -/
theorem c8_docs_count_consistency_witness :
    (Wiser.deserialize .NONE []).length = (Wiser.freshTokenRow 1 [97]).docsCount :=
  ((c8_docs_count_consistency .NONE ⟨false, fun _ => false, false⟩
      [⟨1, [97], 1, Wiser.serialize .NONE [(1, [0])]⟩] [(1, [(2, [0])])]
      rfl (fun _ => rfl) rfl (by decide) (by decide) (by decide)).2 1 [97]).symm


/-- C6: when phrase search is enabled and the query has at least two
tokens, a candidate document d is retained iff some position p0 in the
first token's position list for d has, for every further token index i,
position p0 + i in that token's position list for d; when phrase search is
disabled or fewer than two tokens were queried, the candidates are returned
unchanged. The per-document position lists are sorted strictly ascending,
as the engine constructs them. -/
theorem c6_phrase_filter (enabled : Bool) (posMaps : List Wiser.PList)
    (candidates : List Nat)
    (hsorted : ∀ mp ∈ posMaps, ∀ e ∈ mp, List.Chain' (· < ·) e.2) (d : Nat) :
    d ∈ Wiser.filterByPhrase enabled posMaps candidates ↔
      (if enabled = true ∧ 1 < posMaps.length then
        d ∈ candidates ∧ ∃ p0 ∈ Wiser.posOf posMaps 0 d,
          ∀ i, 1 ≤ i → i < posMaps.length → (p0 + i) ∈ Wiser.posOf posMaps i d
      else d ∈ candidates) := by
  rw [Wiser.filterByPhrase]
  by_cases hcond : enabled = true ∧ 1 < posMaps.length
  · rw [if_pos (by simp [hcond.1, hcond.2]), if_pos hcond, List.mem_filter]
    rw [Wiser.phraseDocOk_iff posMaps d hcond.2 hsorted]
  · rw [if_neg (by
      intro hc
      rw [Bool.and_eq_true, decide_eq_true_iff] at hc
      exact hcond ⟨hc.1, hc.2⟩), if_neg hcond]

/-- Witness for C6 at spec scenario S3: query tokens "bc" and "cd" over
document 1 with positions {1} and {2}; adjacency holds, so the document is
retained. -/
theorem c6_phrase_filter_witness :
    1 ∈ Wiser.filterByPhrase true [[(1, [1])], [(1, [2])]] [1] := by
  refine (c6_phrase_filter true [[(1, [1])], [(1, [2])]] [1] (by decide) 1).mpr ?_
  rw [if_pos (⟨rfl, by decide⟩ : true = true ∧
    1 < ([[(1, [1])], [(1, [2])]] : List Wiser.PList).length)]
  refine ⟨by decide, 1, by decide, ?_⟩
  intro i h1 h2
  simp only [List.length_cons, List.length_nil] at h2
  interval_cases i
  decide


/-- C7 counterexample: the claim says the LIKE fallback is taken iff
tokenization produces no tokens. On the query "ab" with N = 2 over a store
with no token rows, tokenization produces the token "ab", yet no token id
resolves, so the fallback is still taken: the iff fails in the
right-to-left direction. -/
theorem c7_counterexample :
    Wiser.queryTokenTexts 2 (Wiser.utf8ToUtf32 [97, 98]) = [[97, 98]] ∧
    Wiser.queryTokenTexts 2 (Wiser.utf8ToUtf32 [97, 98]) ≠ [] ∧
    Wiser.rankQueryDispatch [] [] 2 [97, 98] = .likeFallback [] :=
  ⟨by decide, by decide, by decide⟩

/-- C7 (amended): the LIKE substring fallback — returning the ids of the
documents whose title or body contains the query as a raw substring, in
ascending id order — is taken iff getTokenIds yields no token ids, that is,
iff no tokenized n-gram of the query resolves to a positive token id in
the store; in particular, an empty tokenization always takes the
fallback. -/
theorem c7_like_fallback (tokens : List Wiser.TokenRow) (docs : List Wiser.DocRow)
    (n : Nat) (query : List Nat) :
    (Wiser.rankQueryDispatch tokens docs n query =
        .likeFallback (Wiser.searchDocumentsLike docs query) ↔
      Wiser.getTokenIdsModel tokens n query = []) ∧
    (Wiser.queryTokenTexts n (Wiser.utf8ToUtf32 query) = [] →
      Wiser.rankQueryDispatch tokens docs n query =
        .likeFallback (Wiser.searchDocumentsLike docs query)) ∧
    List.Sorted (· ≤ ·) (Wiser.searchDocumentsLike docs query) := by
  refine ⟨?_, ?_, ?_⟩
  · rw [Wiser.rankQueryDispatch]
    by_cases h : (Wiser.getTokenIdsModel tokens n query).isEmpty = true
    · rw [if_pos h]
      simp only [List.isEmpty_iff] at h
      exact ⟨fun _ => h, fun _ => rfl⟩
    · rw [if_neg h]
      simp only [List.isEmpty_iff] at h
      constructor
      · intro hc
        exact Wiser.QueryResult.noConfusion hc
      · intro hc
        exact absurd hc h
  · intro h
    have hg : Wiser.getTokenIdsModel tokens n query = [] := by
      rw [Wiser.getTokenIdsModel, h]
      rfl
    rw [Wiser.rankQueryDispatch, if_pos (by rw [hg]; rfl)]
  · exact List.sorted_insertionSort _ _

/-- Witness for the amended C7 theorem: the empty query tokenizes to
nothing and takes the fallback. -/
theorem c7_like_fallback_witness :
    Wiser.rankQueryDispatch [] [⟨1, [97], [98], 0⟩] 2 [] =
      .likeFallback (Wiser.searchDocumentsLike [⟨1, [97], [98], 0⟩] []) :=
  (c7_like_fallback [] [⟨1, [97], [98], 0⟩] 2 []).2.1 (by decide)

set_option maxRecDepth 10000 in
/-- C9 counterexample: the claim says that once the index limit is reached
a one-time flush of the buffer is performed. Indexing one document into an
engine with max_index_count = 1 reaches the limit; the source then returns
with the flush call commented out: the buffer still holds the document's
postings and the token row still has its empty postings blob. -/
theorem c9_counterexample :
    (Wiser.addDocumentModel
      { tokenLen := 2, bufferUpdateThreshold := 2048, maxIndexCount := 1,
        compress := .NONE, indexedCount := 0, docs := [], nextDocId := 1,
        tokens := [], nextTokenId := 1, buffer := [], cache := [], totalTokens := 0 }
      [65] [97, 98]).buffer = [(1, [(1, [0])])] ∧
    (Wiser.addDocumentModel
      { tokenLen := 2, bufferUpdateThreshold := 2048, maxIndexCount := 1,
        compress := .NONE, indexedCount := 0, docs := [], nextDocId := 1,
        tokens := [], nextTokenId := 1, buffer := [], cache := [], totalTokens := 0 }
      [65] [97, 98]).tokens = [Wiser.freshTokenRow 1 [97, 98]] ∧
    ([(1, [(1, [0])])] : List (Nat × Wiser.PList)) ≠ [] :=
  ⟨by decide, by decide, by decide⟩

/-- C9 (amended): once indexed_count ≥ max_index_count with
max_index_count ≥ 0, every further addDocument call is silently ignored as
a complete no-op: the store, the buffer, the doc-length cache,
total_tokens and indexed_count are all left unchanged; no flush is
performed when the limit is reached. -/
theorem c9_limit_noop (env : Wiser.EnvM) (title body : List Nat)
    (h : Wiser.hasReachedIndexLimit env = true) :
    Wiser.addDocumentModel env title body = env := by
  rw [Wiser.addDocumentModel]
  by_cases h1 : title = [] ∧ env.buffer ≠ []
  · rw [if_pos h1]
  · rw [if_neg h1, if_pos h]

/-- Witness for the amended C9 theorem at a concrete environment whose
limit is reached. -/
theorem c9_limit_noop_witness :
    Wiser.addDocumentModel
      { tokenLen := 2, bufferUpdateThreshold := 2048, maxIndexCount := 0,
        compress := .NONE, indexedCount := 5, docs := [], nextDocId := 1,
        tokens := [], nextTokenId := 1, buffer := [], cache := [], totalTokens := 0 }
      [65] [97, 98] =
      { tokenLen := 2, bufferUpdateThreshold := 2048, maxIndexCount := 0,
        compress := .NONE, indexedCount := 5, docs := [], nextDocId := 1,
        tokens := [], nextTokenId := 1, buffer := [], cache := [], totalTokens := 0 } :=
  c9_limit_noop _ [65] [97, 98] (by decide)
